import Mathlib

/-! Verification development for cpp_features.

Shallow embedding of `src/atomic/atomic_impl.h` and
`src/eliminate_virtual/eliminate_virtual.h`.

* `case_atomic`: the documented compare-and-swap of `std::atomic`, the
  `LockFree::runner` loop, the lock based `compare_and_swap` sketch and the
  lock-free `atomic_list::push_front`.
* `case_nvirtual`: the tuple-of-vectors storage `Baz`.

Part I holds the definitions, Part II the lemmas and theorems.
-/

set_option autoImplicit false

/-! ## Part I: definitions -/

namespace case_atomic

/-- Outcome of a compare-and-swap call `a.compare_exchange(old_v, new_v)`:
the returned flag, the stored value after the call and the caller's
variable `old_v` (passed by reference) after the call. -/
structure CasResult (T : Type) where
  ret : Bool
  value : T
  old_v : T
deriving DecidableEq, Repr

/-- Behaviour of `x.compare_exchange_strong(y, z)` on a `std::atomic` as
documented by the comment in `case_atomic::operation`:
`if (x == y) { x = z; return true; } else { y = x; return false; }`. -/
def operation_compare_exchange_strong {T : Type} [DecidableEq T] (x y z : T) : CasResult T :=
  if x = y then
    { ret := true, value := z, old_v := y }
  else
    { ret := false, value := x, old_v := x }

namespace compare_and_swap

/-- The sketch `compare_and_swap::compare_exchange_strong(T& old_v, T new_v)`,
run by one thread with no other thread writing `value` meanwhile: `value` is
the current value of the atomic, read once before and once after `Lock l`. -/
def compare_exchange_strong {T : Type} [DecidableEq T] (value old_v new_v : T) : CasResult T :=
  let tmp := value
  if tmp ≠ old_v then
    { ret := false, value := value, old_v := tmp }
  else
    -- Lock l
    let tmp := value
    if tmp ≠ old_v then
      { ret := false, value := value, old_v := tmp }
    else
      { ret := true, value := new_v, old_v := old_v }

/-- The sketch `compare_and_swap::compare_exchange_weak(T& old_v, T new_v)`.
`locked` is what `l.locked()` answers for the `TimedLock l` when the call gets
that far. -/
def compare_exchange_weak {T : Type} [DecidableEq T] (locked : Bool) (value old_v new_v : T) :
    CasResult T :=
  let tmp := value
  if tmp ≠ old_v then
    { ret := false, value := value, old_v := tmp }
  else
    -- TimedLock l
    if !locked then
      { ret := false, value := value, old_v := old_v }
    else
      let tmp := value
      if tmp ≠ old_v then
        { ret := false, value := value, old_v := tmp }
      else
        { ret := true, value := new_v, old_v := old_v }

end compare_and_swap

/-- Local state of one thread inside `LockFree::runner`. -/
inductive RunnerPC where
  /-- about to run `int x0 = m_x.load();` -/
  | load
  /-- about to evaluate the loop condition `!m_x.compare_exchange_strong(x0, x0 + 1)` -/
  | cas
  /-- inside the block of the `while` loop -/
  | block
  /-- the call of `runner` has returned -/
  | done
deriving DecidableEq, Repr

/-- One thread running `LockFree::runner`: where it is and its local `x0`
(indeterminate, here `none`, before the load). -/
structure RunnerThread where
  pc : RunnerPC
  x0 : Option Int
deriving DecidableEq, Repr

/-- One `LockFree` object shared by the threads that call `runner` on it. -/
structure LockFree where
  m_x : Int
  threads : List RunnerThread
deriving DecidableEq, Repr

/-- A `LockFree` object as constructed (`m_x{ 0 }`) with `n` threads about to
call `runner`. -/
def LockFree.init (n : Nat) : LockFree :=
  { m_x := 0, threads := List.replicate n { pc := RunnerPC.load, x0 := none } }

/-- One atomic step of a thread in `LockFree::runner`. The `int` values are
taken as integers: `m_x` grows by one per returned call, so `x0 + 1` stays in
range for fewer than `INT_MAX` calls. -/
def LockFree.runner_step (m_x : Int) (t : RunnerThread) : Int × RunnerThread :=
  match t.pc with
  | RunnerPC.load => (m_x, { pc := RunnerPC.cas, x0 := some m_x })
  | RunnerPC.cas =>
    match t.x0 with
    | none => (m_x, t)
    | some x0 =>
      let r := operation_compare_exchange_strong m_x x0 (x0 + 1)
      -- `while (!cas) { block }`: the block is entered when the call answers false
      if !r.ret then (r.value, { pc := RunnerPC.block, x0 := some r.old_v })
      else (r.value, { pc := RunnerPC.done, x0 := some r.old_v })
  | RunnerPC.block => (m_x, { t with pc := RunnerPC.cas })
  | RunnerPC.done => (m_x, t)

/-- Thread `i` takes its next atomic step. -/
def LockFree.step (s : LockFree) (i : Nat) : LockFree :=
  match s.threads[i]? with
  | none => s
  | some t =>
    let r := LockFree.runner_step s.m_x t
    { m_x := r.1, threads := s.threads.set i r.2 }

/-- An interleaving: the threads step in the order the schedule lists them. -/
def LockFree.run (s : LockFree) (sched : List Nat) : LockFree :=
  sched.foldl LockFree.step s

/-- What the comment inside the block of the `while` loop of `runner` states
(`m_x = x0 + 1`, `x0` is unique among all threads), for every thread that is
inside the block. -/
def LockFree.block_comment (s : LockFree) : Prop :=
  ∀ (i : Nat) (t : RunnerThread), s.threads[i]? = some t → t.pc = RunnerPC.block →
    (∃ x0, t.x0 = some x0 ∧ s.m_x = x0 + 1) ∧
    ∀ (j : Nat) (u : RunnerThread), j ≠ i → s.threads[j]? = some u → u.pc = RunnerPC.block →
      u.x0 ≠ t.x0

/-- The threads that have left the loop of `runner` hold pairwise different
values of `x0`, each below `m_x`. -/
structure LockFree.DoneInv (s : LockFree) : Prop where
  below : ∀ (i : Nat) (t : RunnerThread), s.threads[i]? = some t → t.pc = RunnerPC.done →
    ∃ v, t.x0 = some v ∧ v < s.m_x
  unique : ∀ (i j : Nat) (ti tj : RunnerThread), s.threads[i]? = some ti →
    s.threads[j]? = some tj → i ≠ j → ti.pc = RunnerPC.done → tj.pc = RunnerPC.done →
    ti.x0 ≠ tj.x0

namespace atomic_list

/-- A `Node*`: `none` is the null pointer, `some a` the address of the `a`-th
node allocated by `new Node`. -/
abbrev Ptr := Option Nat

/-- The struct `Node`. A field is `none` while it is indeterminate, as both
are right after `new Node`. -/
structure Node where
  value : Option Int
  next : Option Ptr
deriving DecidableEq, Repr

/-- The memory the threads share: the nodes allocated so far (the node at
address `a` is `heap[a]`) and the global `std::atomic<Node*> head`. -/
structure Mem where
  heap : List Node
  head : Ptr
deriving DecidableEq, Repr

/-- The memory at program start: nothing allocated, `head` null (static
storage). -/
def Mem.empty : Mem := { heap := [], head := none }

/-- The expression `new Node`: a fresh address whose node has indeterminate
fields (allocation is taken to succeed). -/
def alloc (heap : List Node) : Nat × List Node :=
  (heap.length, heap ++ [{ value := none, next := none }])

/-- The assignment `p->value = x`. -/
def write_value (heap : List Node) (p : Nat) (x : Int) : List Node :=
  match heap[p]? with
  | some n => heap.set p { n with value := some x }
  | none => heap

/-- The assignment `p->next = q`. -/
def write_next (heap : List Node) (p : Nat) (q : Ptr) : List Node :=
  match heap[p]? with
  | some n => heap.set p { n with next := some q }
  | none => heap

/-- The loop of `push_front`,
`do { new_node->next = old_head; } while (!head.compare_exchange_strong(old_head, new_node));`
run by a single thread, for at most `fuel` iterations. -/
def push_front_loop : Nat → Mem → Nat → Ptr → Option Mem
  | 0, _, _, _ => none
  | fuel + 1, m, new_node, old_head =>
    let heap := write_next m.heap new_node old_head
    let r := operation_compare_exchange_strong m.head old_head (some new_node)
    if !r.ret then push_front_loop fuel { heap := heap, head := r.value } new_node r.old_v
    else some { heap := heap, head := r.value }

/-- The function `push_front(int x)` run by a single thread; `fuel` bounds the
iterations of its loop. -/
def push_front (fuel : Nat) (m : Mem) (x : Int) : Option Mem :=
  let a := alloc m.heap
  let new_node := a.1
  let heap := write_value a.2 new_node x
  let old_head := m.head
  push_front_loop fuel { heap := heap, head := m.head } new_node old_head

/-- Calls `push_front` on each element of `xs` in order, single-threaded. -/
def push_all (fuel : Nat) (m : Mem) (xs : List Int) : Option Mem :=
  xs.foldlM (push_front fuel) m

/-- The nodes met from `p` following `next`, front to back, each as its
address and value; `none` when a node is missing or has an indeterminate
field, or when `fuel` nodes do not reach the null pointer. -/
def chain_from (heap : List Node) : Nat → Ptr → Option (List (Nat × Int))
  | _, none => some []
  | 0, some _ => none
  | fuel + 1, some a =>
    match heap[a]? with
    | some { value := some v, next := some q } =>
      (chain_from heap fuel q).map (fun l => (a, v) :: l)
    | _ => none

/-- The chain reachable from `head`: addresses and values, front to back. -/
def Mem.chain (m : Mem) : Option (List (Nat × Int)) :=
  chain_from m.heap m.heap.length m.head

/-- The values read from `head` through the `next` pointers, front to back. -/
def Mem.values (m : Mem) : Option (List Int) :=
  m.chain.map (List.map Prod.snd)

/-- Modelled from the spec: the operation `pop()` of section 4.1, which the
source does not define (`atomic_list` has `push_front` only), run by a single
thread for at most `fuel` attempts. Step 1 reads `head` into `old_head` and
returns "empty" (`none`) if it is the empty marker; step 2 reads the `next` of
`old_head` as the candidate new head; step 3 is the compare-and-swap of `head`
from `old_head` to the candidate; step 4 returns the value of the detached node
on success and retries from step 1 on failure. The outer `none` stands for a
run that meets a missing or indeterminate node or spends its fuel. -/
def pop : Nat → Mem → Option (Option Int × Mem)
  | 0, _ => none
  | fuel + 1, m =>
    let old_head := m.head
    match old_head with
    | none => some (none, m)
    | some a =>
      match m.heap[a]? with
      | some { value := some v, next := some candidate } =>
        let r := operation_compare_exchange_strong m.head old_head candidate
        if r.ret then some (some v, { m with head := r.value })
        else pop fuel m
      | _ => none

/-- Calls `pop` (as modelled) `n` times in a row, collecting what it returns. -/
def pops (fuel : Nat) : Nat → Mem → Option (List (Option Int) × Mem)
  | 0, m => some ([], m)
  | n + 1, m =>
    match pop fuel m with
    | none => none
    | some (r, m') => (pops fuel n m').map fun p => (r :: p.1, p.2)

/-- Where a thread stands in `push_front`: the statement it runs next. -/
inductive PC where
  /-- between calls: next is `Node* new_node = new Node;` of the next call -/
  | entry
  /-- next is `new_node->value = x;` -/
  | set_value
  /-- next is `Node* old_head = head;` -/
  | load_head
  /-- next is the loop body `new_node->next = old_head;` -/
  | set_next
  /-- next is `head.compare_exchange_strong(old_head, new_node)` -/
  | cas
deriving DecidableEq, Repr

/-- One thread: the arguments of the `push_front` calls it has still to make,
and the locals of the call in flight. -/
structure Thread where
  todo : List Int
  pc : PC
  x : Int
  new_node : Nat
  old_head : Ptr
deriving DecidableEq, Repr

/-- One atomic step of a thread on the shared memory. The operations on
`head` are `std::atomic` operations with the default sequentially consistent
order, and a node is written by the thread that allocated it only, before the
compare-and-swap that publishes it, so the executions are the interleavings of
these steps. -/
def thread_step (m : Mem) (t : Thread) : Mem × Thread :=
  match t.pc with
  | PC.entry =>
    match t.todo with
    | [] => (m, t)
    | x :: rest =>
      let a := alloc m.heap
      ({ m with heap := a.2 }, { t with todo := rest, pc := PC.set_value, x := x, new_node := a.1 })
  | PC.set_value =>
    ({ m with heap := write_value m.heap t.new_node t.x }, { t with pc := PC.load_head })
  | PC.load_head =>
    (m, { t with pc := PC.set_next, old_head := m.head })
  | PC.set_next =>
    ({ m with heap := write_next m.heap t.new_node t.old_head }, { t with pc := PC.cas })
  | PC.cas =>
    let r := operation_compare_exchange_strong m.head t.old_head (some t.new_node)
    if !r.ret then ({ m with head := r.value }, { t with pc := PC.set_next, old_head := r.old_v })
    else ({ m with head := r.value }, { t with pc := PC.entry, old_head := r.old_v })

/-- The whole program state: shared memory and the threads. -/
structure State where
  mem : Mem
  threads : List Thread
deriving DecidableEq, Repr

/-- Start of the program: empty list, and thread `i` is to call `push_front`
on the elements of `calls[i]` in order. -/
def State.init (calls : List (List Int)) : State :=
  { mem := Mem.empty,
    threads := calls.map fun xs =>
      { todo := xs, pc := PC.entry, x := 0, new_node := 0, old_head := none } }

/-- Thread `i` takes its next atomic step. -/
def State.step (s : State) (i : Nat) : State :=
  match s.threads[i]? with
  | none => s
  | some t =>
    let r := thread_step s.mem t
    { mem := r.1, threads := s.threads.set i r.2 }

/-- An interleaving: the threads step in the order the schedule lists them. -/
def State.run (s : State) (sched : List Nat) : State :=
  sched.foldl State.step s

/-- Every call of every thread has returned. -/
def State.all_returned (s : State) : Prop :=
  ∀ t ∈ s.threads, t.pc = PC.entry ∧ t.todo = []

instance (s : State) : Decidable s.all_returned :=
  inferInstanceAs (Decidable (∀ t ∈ s.threads, t.pc = PC.entry ∧ t.todo = []))

/-- Relational reading of the chain: `l` lists, front to back, the address and
value of every node met from `p` through the `next` pointers down to null. -/
def IsChain (heap : List Node) : Ptr → List (Nat × Int) → Prop
  | p, [] => p = none
  | p, (a, v) :: l =>
    p = some a ∧ ∃ q, heap[a]? = some { value := some v, next := some q } ∧ IsChain heap q l

/-- What a thread has still to link: the argument of its call in flight, if
any, then the arguments of the calls it has not started. -/
def Thread.pending (t : Thread) : List Int :=
  if t.pc = PC.entry then t.todo else t.x :: t.todo

/-- What the threads together have still to link. -/
def pending : List Thread → List Int
  | [] => []
  | t :: ts => t.pending ++ pending ts

/-- Invariant of the concurrent program, for the chain `l` reachable from
`head`: the chain is well formed and without repetition; a node being prepared
by a call in flight is allocated, not yet linked and private to that call; its
fields hold what the call has written so far. -/
structure Inv (s : State) (l : List (Nat × Int)) : Prop where
  chain : IsChain s.mem.heap s.mem.head l
  nodup : (l.map Prod.fst).Nodup
  own : ∀ (i : Nat) (t : Thread), s.threads[i]? = some t → t.pc ≠ PC.entry →
    t.new_node < s.mem.heap.length ∧ t.new_node ∉ l.map Prod.fst
  distinct : ∀ (i j : Nat) (ti tj : Thread), s.threads[i]? = some ti →
    s.threads[j]? = some tj → i ≠ j →
    ti.pc ≠ PC.entry → tj.pc ≠ PC.entry → ti.new_node ≠ tj.new_node
  val : ∀ (i : Nat) (t : Thread) (n : Node), s.threads[i]? = some t →
    t.pc ≠ PC.entry → t.pc ≠ PC.set_value →
    s.mem.heap[t.new_node]? = some n → n.value = some t.x
  nxt : ∀ (i : Nat) (t : Thread) (n : Node), s.threads[i]? = some t → t.pc = PC.cas →
    s.mem.heap[t.new_node]? = some n → n.next = some t.old_head

/-- The snapshot `old_head` of a thread in the loop is still the value of
`head`. -/
def Thread.fresh (m : Mem) (t : Thread) : Prop :=
  t.pc = PC.set_next ∨ t.pc = PC.cas → t.old_head = m.head

/-- The thread is about to attempt a compare-and-swap that will succeed. -/
def Thread.cas_succeeds (m : Mem) (t : Thread) : Prop :=
  t.pc = PC.cas ∧ m.head = t.old_head

/-- The thread has taken `n` steps of a call `push_front(x)`, none of its
compare-and-swap attempts failing, `rest` being the arguments of its later
calls: `0` is before the call, `5` after its return. -/
def Thread.stage (m : Mem) (t : Thread) (x : Int) (rest : List Int) : Nat → Prop
  | 0 => t.pc = PC.entry ∧ t.todo = x :: rest
  | 1 => t.pc = PC.set_value ∧ t.todo = rest
  | 2 => t.pc = PC.load_head ∧ t.todo = rest
  | 3 => t.pc = PC.set_next ∧ t.todo = rest ∧ t.old_head = m.head
  | 4 => t.pc = PC.cas ∧ t.todo = rest ∧ t.old_head = m.head
  | _ => t.pc = PC.entry ∧ t.todo = rest

end atomic_list

end case_atomic

namespace case_nvirtual

/-- The struct `case_nvirtual::Foo1`: no data members. -/
structure Foo1 where
deriving DecidableEq, Repr

/-- Member `Foo1::func`. -/
def Foo1.func (_ : Foo1) : Int := 40

/-- The struct `case_nvirtual::Foo2`: no data members. -/
structure Foo2 where
deriving DecidableEq, Repr

/-- Member `Foo2::func`. -/
def Foo2.func (_ : Foo2) : Int := 41

/-- The class template `Baz<TFoos...>` at two type arguments:
`m_data` is `std::tuple<std::vector<T1>, std::vector<T2>>`. -/
structure Baz (T1 T2 : Type) where
  m_data : List T1 × List T2

/-- Member `Baz::store<T>(T value)`: `push_back` on the component of `m_data`
whose element type is `T`. The template argument `T` is one of `T1`, `T2`
(`same_as_any`), so the stored value is a `T1` or a `T2`. -/
def Baz.store {T1 T2 : Type} (b : Baz T1 T2) (value : T1 ⊕ T2) : Baz T1 T2 :=
  match value with
  | Sum.inl v => { m_data := (b.m_data.1 ++ [v], b.m_data.2) }
  | Sum.inr v => { m_data := (b.m_data.1, b.m_data.2 ++ [v]) }

/-- The alias `foo_storage_t = Baz<Foo1, Foo2>`. -/
abbrev foo_storage_t := Baz Foo1 Foo2

/-- The function `case_nvirtual::caseStudy3`, returning the local `baz`. -/
def caseStudy3 : foo_storage_t :=
  let baz : foo_storage_t := { m_data := ([], []) }
  let baz := baz.store (Sum.inl {})
  let baz := baz.store (Sum.inr {})
  baz

end case_nvirtual

/-! ## Part II: theorems -/

namespace case_atomic

namespace compare_and_swap

/-- C4: run without interference, `compare_exchange_strong` returns true
exactly when the stored value equals `old_v`; on true the stored value becomes
`new_v` and `old_v` is kept, on false the stored value is kept and `old_v`
receives it; and this is the outcome documented for `std::atomic` in
`case_atomic::operation`. -/
theorem compare_exchange_strong_contract {T : Type} [DecidableEq T] (v old_v new_v : T) :
    ((compare_exchange_strong v old_v new_v).ret = true ↔ v = old_v) ∧
    ((compare_exchange_strong v old_v new_v).ret = true →
      (compare_exchange_strong v old_v new_v).value = new_v ∧
      (compare_exchange_strong v old_v new_v).old_v = old_v) ∧
    ((compare_exchange_strong v old_v new_v).ret = false →
      (compare_exchange_strong v old_v new_v).value = v ∧
      (compare_exchange_strong v old_v new_v).old_v = v) ∧
    compare_exchange_strong v old_v new_v = operation_compare_exchange_strong v old_v new_v := by
  by_cases h : v = old_v <;>
    simp [compare_exchange_strong, operation_compare_exchange_strong, h]

/-- Witness for C4: one call that succeeds and one that fails. -/
theorem compare_exchange_strong_contract_witness :
    compare_exchange_strong (7 : Int) 7 9 = { ret := true, value := 9, old_v := 7 } ∧
    compare_exchange_strong (7 : Int) 5 9 = { ret := false, value := 7, old_v := 7 } :=
  ⟨by
    have h := compare_exchange_strong_contract (7 : Int) 7 9
    rw [h.2.2.2]; decide,
   by
    have h := compare_exchange_strong_contract (7 : Int) 5 9
    rw [h.2.2.2]; decide⟩

/-- C9: `compare_exchange_weak` agrees with `compare_exchange_strong` when the
timed lock is acquired and when the first check already fails; when the first
check passes and the timed lock is not acquired it returns false and leaves
the stored value and `old_v` as they were, `old_v` being equal to the stored
value. -/
theorem compare_exchange_weak_vs_strong {T : Type} [DecidableEq T]
    (locked : Bool) (v old_v new_v : T) :
    (locked = true ∨ v ≠ old_v →
      compare_exchange_weak locked v old_v new_v = compare_exchange_strong v old_v new_v) ∧
    (locked = false ∧ v = old_v →
      (compare_exchange_weak locked v old_v new_v).ret = false ∧
      (compare_exchange_weak locked v old_v new_v).value = v ∧
      (compare_exchange_weak locked v old_v new_v).old_v = old_v ∧
      old_v = v) := by
  refine ⟨?_, ?_⟩
  · rintro (h | h)
    · subst h
      by_cases hv : v = old_v <;> simp [compare_exchange_weak, compare_exchange_strong, hv]
    · simp [compare_exchange_weak, compare_exchange_strong, h]
  · rintro ⟨h, hv⟩
    subst h
    simp [compare_exchange_weak, hv]

/-- Witness for C9: the stored value equals `old_v` and the timed lock is not
acquired, so the weak form fails where the strong form succeeds. -/
theorem compare_exchange_weak_vs_strong_witness :
    compare_exchange_weak false (7 : Int) 7 9 = { ret := false, value := 7, old_v := 7 } ∧
    compare_exchange_strong (7 : Int) 7 9 = { ret := true, value := 9, old_v := 7 } ∧
    compare_exchange_weak true (7 : Int) 7 9 = compare_exchange_strong (7 : Int) 7 9 :=
  ⟨by decide, by decide,
    (compare_exchange_weak_vs_strong true (7 : Int) 7 9).1 (Or.inl rfl)⟩

end compare_and_swap

namespace atomic_list

/-! ### Heap cells under the three kinds of write -/

theorem length_write_value (heap : List Node) (p : Nat) (x : Int) :
    (write_value heap p x).length = heap.length := by
  unfold write_value
  cases h : heap[p]? <;> simp

theorem length_write_next (heap : List Node) (p : Nat) (q : Ptr) :
    (write_next heap p q).length = heap.length := by
  unfold write_next
  cases h : heap[p]? <;> simp

theorem getElem?_write_value_ne (heap : List Node) (p : Nat) (x : Int) (a : Nat) (h : a ≠ p) :
    (write_value heap p x)[a]? = heap[a]? := by
  unfold write_value
  cases hp : heap[p]? with
  | none => rfl
  | some n => simp [List.getElem?_set_ne (Ne.symm h)]

theorem getElem?_write_next_ne (heap : List Node) (p : Nat) (q : Ptr) (a : Nat) (h : a ≠ p) :
    (write_next heap p q)[a]? = heap[a]? := by
  unfold write_next
  cases hp : heap[p]? with
  | none => rfl
  | some n => simp [List.getElem?_set_ne (Ne.symm h)]

theorem getElem?_write_value_self (heap : List Node) (p : Nat) (x : Int) (n : Node)
    (h : heap[p]? = some n) :
    (write_value heap p x)[p]? = some { n with value := some x } := by
  have hlt : p < heap.length := (List.getElem?_eq_some.1 h).1
  simp [write_value, h, List.getElem?_set, hlt]

theorem getElem?_write_next_self (heap : List Node) (p : Nat) (q : Ptr) (n : Node)
    (h : heap[p]? = some n) :
    (write_next heap p q)[p]? = some { n with next := some q } := by
  have hlt : p < heap.length := (List.getElem?_eq_some.1 h).1
  simp [write_next, h, List.getElem?_set, hlt]

theorem getElem?_alloc_old (heap : List Node) (a : Nat) (h : a < heap.length) :
    (alloc heap).2[a]? = heap[a]? := by
  simp [alloc, List.getElem?_append_left h]

theorem getElem?_alloc_new (heap : List Node) :
    (alloc heap).2[(alloc heap).1]? = some { value := none, next := none } := by
  simp [alloc]

theorem write_value_alloc (heap : List Node) (x : Int) :
    write_value (alloc heap).2 (alloc heap).1 x = heap ++ [{ value := some x, next := none }] := by
  apply List.ext_getElem?
  intro a
  by_cases ha : a = heap.length
  · subst ha
    have h := getElem?_write_value_self (alloc heap).2 (alloc heap).1 x _ (getElem?_alloc_new heap)
    simpa [alloc] using h
  · have h := getElem?_write_value_ne (alloc heap).2 (alloc heap).1 x a (by simpa [alloc] using ha)
    rw [h]
    rcases Nat.lt_or_gt_of_ne ha with hlt | hgt
    · simp [alloc, List.getElem?_append_left hlt]
    · have h1 : (heap ++ [({ value := none, next := none } : Node)]).length ≤ a := by
        simp; omega
      have h2 : (heap ++ [({ value := some x, next := none } : Node)]).length ≤ a := by
        simp; omega
      simp only [alloc]
      rw [List.getElem?_eq_none h1, List.getElem?_eq_none h2]

theorem write_next_last (heap : List Node) (n : Node) (q : Ptr) :
    write_next (heap ++ [n]) heap.length q = heap ++ [{ n with next := some q }] := by
  apply List.ext_getElem?
  intro a
  by_cases ha : a = heap.length
  · subst ha
    have h := getElem?_write_next_self (heap ++ [n]) heap.length q n (by simp)
    simpa using h
  · rw [getElem?_write_next_ne _ _ _ _ ha]
    rcases Nat.lt_or_gt_of_ne ha with hlt | hgt
    · simp [List.getElem?_append_left hlt]
    · have h1 : (heap ++ [n]).length ≤ a := by simp; omega
      have h2 : (heap ++ [({ n with next := some q } : Node)]).length ≤ a := by simp; omega
      rw [List.getElem?_eq_none h1, List.getElem?_eq_none h2]

/-! ### The chain -/

theorem IsChain.frame {heap heap' : List Node} {p : Ptr} {l : List (Nat × Int)}
    (h : IsChain heap p l) (hf : ∀ a ∈ l.map Prod.fst, heap'[a]? = heap[a]?) :
    IsChain heap' p l := by
  induction l generalizing p with
  | nil => exact h
  | cons c l ih =>
    obtain ⟨a, v⟩ := c
    obtain ⟨hp, q, hq, hl⟩ := h
    refine ⟨hp, q, ?_, ih hl fun b hb => hf b (by simp at hb ⊢; exact Or.inr hb)⟩
    rw [hf a (by simp)]
    exact hq

theorem IsChain.lt_length {heap : List Node} {p : Ptr} {l : List (Nat × Int)}
    (h : IsChain heap p l) : ∀ a ∈ l.map Prod.fst, a < heap.length := by
  induction l generalizing p with
  | nil => simp
  | cons c l ih =>
    obtain ⟨a, v⟩ := c
    obtain ⟨_, q, hq, hl⟩ := h
    intro b hb
    simp only [List.map_cons, List.mem_cons] at hb
    rcases hb with rfl | hb
    · exact (List.getElem?_eq_some.1 hq).1
    · exact ih hl b hb

theorem IsChain.unique {heap : List Node} {p : Ptr} {l l' : List (Nat × Int)}
    (h : IsChain heap p l) (h' : IsChain heap p l') : l = l' := by
  induction l generalizing p l' with
  | nil =>
    cases l' with
    | nil => rfl
    | cons c l' =>
      obtain ⟨a, v⟩ := c
      have h1 : p = none := h
      have h2 : p = some a := h'.1
      rw [h1] at h2
      cases h2
  | cons c l ih =>
    obtain ⟨a, v⟩ := c
    obtain ⟨hp, q, hq, hl⟩ := h
    cases l' with
    | nil =>
      have h1 : p = none := h'
      rw [h1] at hp
      cases hp
    | cons c' l' =>
      obtain ⟨a', v'⟩ := c'
      obtain ⟨hp', q', hq', hl'⟩ := h'
      rw [hp] at hp'
      cases hp'
      rw [hq] at hq'
      cases hq'
      rw [ih hl hl']

theorem chain_from_eq_some_iff (heap : List Node) (fuel : Nat) (p : Ptr) (l : List (Nat × Int)) :
    chain_from heap fuel p = some l ↔ IsChain heap p l ∧ l.length ≤ fuel := by
  induction fuel generalizing p l with
  | zero =>
    cases p with
    | none =>
      cases l with
      | nil => simp [chain_from, IsChain]
      | cons c l => obtain ⟨a, v⟩ := c; simp [chain_from, IsChain]
    | some a =>
      cases l with
      | nil => simp [chain_from, IsChain]
      | cons c l => obtain ⟨a', v⟩ := c; simp [chain_from, IsChain]
  | succ fuel ih =>
    cases p with
    | none =>
      cases l with
      | nil => simp [chain_from, IsChain]
      | cons c l => obtain ⟨a, v⟩ := c; simp [chain_from, IsChain]
    | some a =>
      cases hn : heap[a]? with
      | none =>
        cases l with
        | nil => simp [chain_from, IsChain, hn]
        | cons c l => obtain ⟨a', v⟩ := c; simp [chain_from, IsChain, hn]; intro h; subst h; simp [hn]
      | some n =>
        obtain ⟨nv, nn⟩ := n
        cases nv with
        | none =>
          cases l with
          | nil => simp [chain_from, IsChain, hn]
          | cons c l =>
            obtain ⟨a', v⟩ := c; simp [chain_from, IsChain, hn]; intro h; subst h; simp [hn]
        | some v =>
          cases nn with
          | none =>
            cases l with
            | nil => simp [chain_from, IsChain, hn]
            | cons c l =>
              obtain ⟨a', v'⟩ := c; simp [chain_from, IsChain, hn]; intro h; subst h; simp [hn]
          | some q =>
            cases l with
            | nil => simp [chain_from, IsChain, hn]
            | cons c l =>
              obtain ⟨a', v'⟩ := c
              simp only [chain_from, hn, Option.map_eq_some', IsChain, List.length_cons,
                Nat.add_le_add_iff_right]
              constructor
              · rintro ⟨l0, hl0, heq⟩
                cases heq
                obtain ⟨hc, hlen⟩ := (ih q l).1 hl0
                exact ⟨⟨rfl, q, hn, hc⟩, hlen⟩
              · rintro ⟨⟨ha, q', hq', hc⟩, hlen⟩
                cases ha
                rw [hn] at hq'
                cases hq'
                exact ⟨l, (ih q l).2 ⟨hc, hlen⟩, rfl⟩

/-! ### Single-threaded `push_front` -/

theorem push_front_eq (fuel : Nat) (m : Mem) (x : Int) :
    push_front (fuel + 1) m x =
      some { heap := m.heap ++ [{ value := some x, next := some m.head }],
             head := some m.heap.length } := by
  unfold push_front
  simp only [write_value_alloc]
  have h1 : (alloc m.heap).1 = m.heap.length := rfl
  rw [h1]
  unfold push_front_loop
  simp only [write_next_last]
  simp [operation_compare_exchange_strong]

theorem IsChain.push {heap : List Node} {p : Ptr} {l : List (Nat × Int)}
    (h : IsChain heap p l) (x : Int) :
    IsChain (heap ++ [{ value := some x, next := some p }]) (some heap.length)
      ((heap.length, x) :: l) := by
  refine ⟨rfl, p, by simp, ?_⟩
  apply h.frame
  intro a ha
  exact List.getElem?_append_left (h.lt_length a ha)

theorem push_all_chain (fuel : Nat) (xs : List Int) (m : Mem) (l : List (Nat × Int))
    (h : IsChain m.heap m.head l) (hlen : l.length ≤ m.heap.length) :
    ∃ m' l', push_all (fuel + 1) m xs = some m' ∧ IsChain m'.heap m'.head l' ∧
      l'.length ≤ m'.heap.length ∧ l'.map Prod.snd = xs.reverse ++ l.map Prod.snd := by
  induction xs generalizing m l with
  | nil => exact ⟨m, l, rfl, h, hlen, by simp⟩
  | cons x xs ih =>
    obtain ⟨m', l', h1, h2, h3, h4⟩ :=
      ih { heap := m.heap ++ [{ value := some x, next := some m.head }],
           head := some m.heap.length } ((m.heap.length, x) :: l) (h.push x)
        (by simp; exact hlen)
    refine ⟨m', l', ?_, h2, h3, ?_⟩
    · unfold push_all at h1 ⊢
      rw [List.foldlM_cons, push_front_eq]
      exact h1
    · rw [h4]; simp

theorem Mem.values_of_isChain {m : Mem} {l : List (Nat × Int)}
    (h : IsChain m.heap m.head l) (hlen : l.length ≤ m.heap.length) :
    m.values = some (l.map Prod.snd) := by
  unfold Mem.values Mem.chain
  rw [(chain_from_eq_some_iff _ _ _ _).2 ⟨h, hlen⟩]
  rfl

/-! ### The invariant of the concurrent program -/

theorem getElem?_set_cases {α : Type} {ts : List α} {i j : Nat} {t' b : α}
    (h : (ts.set i t')[j]? = some b) :
    (j = i ∧ b = t') ∨ (j ≠ i ∧ ts[j]? = some b) := by
  rw [List.getElem?_set] at h
  by_cases hij : i = j
  · subst hij
    rw [if_pos rfl] at h
    by_cases hlt : i < ts.length
    · rw [if_pos hlt] at h
      exact Or.inl ⟨rfl, (Option.some.inj h).symm⟩
    · rw [if_neg hlt] at h
      cases h
  · rw [if_neg hij] at h
    exact Or.inr ⟨fun e => hij e.symm, h⟩

theorem Inv.step_core {s : State} {l : List (Nat × Int)} (hinv : Inv s l) {i : Nat} {t : Thread}
    (hi : s.threads[i]? = some t)
    (heap' : List Node) (head' : Ptr) (t' : Thread) (l' : List (Nat × Int))
    (hlen : s.mem.heap.length ≤ heap'.length)
    (hframe : ∀ a, a < s.mem.heap.length → (t.pc = PC.entry ∨ a ≠ t.new_node) →
      heap'[a]? = s.mem.heap[a]?)
    (hchain : IsChain heap' head' l')
    (hnodup : (l'.map Prod.fst).Nodup)
    (hl' : ∀ a ∈ l'.map Prod.fst, a ∈ l.map Prod.fst ∨ (t.pc ≠ PC.entry ∧ a = t.new_node))
    (hown : t'.pc ≠ PC.entry → t'.new_node < heap'.length ∧ t'.new_node ∉ l'.map Prod.fst ∧
      ((t.pc ≠ PC.entry ∧ t'.new_node = t.new_node) ∨ s.mem.heap.length ≤ t'.new_node))
    (hval : ∀ n, t'.pc ≠ PC.entry → t'.pc ≠ PC.set_value → heap'[t'.new_node]? = some n →
      n.value = some t'.x)
    (hnxt : ∀ n, t'.pc = PC.cas → heap'[t'.new_node]? = some n → n.next = some t'.old_head) :
    Inv { mem := { heap := heap', head := head' }, threads := s.threads.set i t' } l' := by
  -- a thread other than `i` keeps its node, which no write of `i` touches
  have other : ∀ (j : Nat) (tj : Thread), j ≠ i → s.threads[j]? = some tj → tj.pc ≠ PC.entry →
      tj.new_node < s.mem.heap.length ∧ tj.new_node ∉ l'.map Prod.fst ∧
      heap'[tj.new_node]? = s.mem.heap[tj.new_node]? := by
    intro j tj hji hj hpc
    obtain ⟨h1, h2⟩ := hinv.own j tj hj hpc
    have hne : t.pc ≠ PC.entry → tj.new_node ≠ t.new_node :=
      fun htpc => hinv.distinct j i tj t hj hi hji hpc htpc
    refine ⟨h1, ?_, ?_⟩
    · intro hmem
      rcases hl' _ hmem with h | ⟨htpc, h⟩
      · exact h2 h
      · exact hne htpc h
    · apply hframe _ h1
      by_cases htpc : t.pc = PC.entry
      · exact Or.inl htpc
      · exact Or.inr (hne htpc)
  constructor
  · exact hchain
  · exact hnodup
  · intro j tj hj hpc
    rcases getElem?_set_cases hj with ⟨_, rfl⟩ | ⟨hji, hj⟩
    · exact ⟨(hown hpc).1, (hown hpc).2.1⟩
    · obtain ⟨h1, h2, _⟩ := other j tj hji hj hpc
      exact ⟨Nat.lt_of_lt_of_le h1 hlen, h2⟩
  · intro j k tj tk hj hk hjk hpcj hpck
    rcases getElem?_set_cases hj with ⟨rfl, rfl⟩ | ⟨hji, hj'⟩
    · rcases getElem?_set_cases hk with ⟨rfl, rfl⟩ | ⟨hki, hk⟩
      · exact absurd rfl hjk
      · rcases (hown hpcj).2.2 with ⟨htpc, h⟩ | h
        · rw [h]
          exact fun e => hinv.distinct k j tk t hk hi hki hpck htpc e.symm
        · have := (hinv.own k tk hk hpck).1
          omega
    · rcases getElem?_set_cases hk with ⟨hki, hk'⟩ | ⟨hki, hk'⟩
      · subst hk'
        rcases (hown hpck).2.2 with ⟨htpc, h⟩ | h
        · rw [h]
          exact hinv.distinct j i tj t hj' hi hji hpcj htpc
        · have := (hinv.own j tj hj' hpcj).1
          omega
      · exact hinv.distinct j k tj tk hj' hk' hjk hpcj hpck
  · intro j tj n hj hpc hpc2 hn
    rcases getElem?_set_cases hj with ⟨_, rfl⟩ | ⟨hji, hj⟩
    · exact hval n hpc hpc2 hn
    · obtain ⟨_, _, h3⟩ := other j tj hji hj hpc
      exact hinv.val j tj n hj hpc hpc2 (by rw [← h3]; exact hn)
  · intro j tj n hj hpc hn
    rcases getElem?_set_cases hj with ⟨_, rfl⟩ | ⟨hji, hj⟩
    · exact hnxt n hpc hn
    · obtain ⟨_, _, h3⟩ := other j tj hji hj (by rw [hpc]; decide)
      exact hinv.nxt j tj n hj hpc (by rw [← h3]; exact hn)

/-! ### What each step does -/

theorem State.step_eq {s : State} {i : Nat} {t : Thread} (hi : s.threads[i]? = some t) :
    s.step i =
      { mem := (thread_step s.mem t).1, threads := s.threads.set i (thread_step s.mem t).2 } := by
  simp [State.step, hi]

theorem State.step_none {s : State} {i : Nat} (hi : s.threads[i]? = none) : s.step i = s := by
  simp [State.step, hi]

theorem thread_step_entry_nil {m : Mem} {t : Thread} (hpc : t.pc = PC.entry) (htodo : t.todo = []) :
    thread_step m t = (m, t) := by
  simp [thread_step, hpc, htodo]

theorem thread_step_entry_cons {m : Mem} {t : Thread} {x : Int} {rest : List Int}
    (hpc : t.pc = PC.entry) (htodo : t.todo = x :: rest) :
    thread_step m t =
      ({ heap := m.heap ++ [{ value := none, next := none }], head := m.head },
       { t with todo := rest, pc := PC.set_value, x := x, new_node := m.heap.length }) := by
  simp [thread_step, hpc, htodo, alloc]

theorem thread_step_set_value {m : Mem} {t : Thread} (hpc : t.pc = PC.set_value) :
    thread_step m t =
      ({ heap := write_value m.heap t.new_node t.x, head := m.head },
       { t with pc := PC.load_head }) := by
  simp [thread_step, hpc]

theorem thread_step_load_head {m : Mem} {t : Thread} (hpc : t.pc = PC.load_head) :
    thread_step m t = (m, { t with pc := PC.set_next, old_head := m.head }) := by
  simp [thread_step, hpc]

theorem thread_step_set_next {m : Mem} {t : Thread} (hpc : t.pc = PC.set_next) :
    thread_step m t =
      ({ heap := write_next m.heap t.new_node t.old_head, head := m.head },
       { t with pc := PC.cas }) := by
  simp [thread_step, hpc]

theorem thread_step_cas_fail {m : Mem} {t : Thread} (hpc : t.pc = PC.cas)
    (h : m.head ≠ t.old_head) :
    thread_step m t = (m, { t with pc := PC.set_next, old_head := m.head }) := by
  simp [thread_step, hpc, operation_compare_exchange_strong, h]

theorem thread_step_cas_ok {m : Mem} {t : Thread} (hpc : t.pc = PC.cas)
    (h : m.head = t.old_head) :
    thread_step m t =
      ({ heap := m.heap, head := some t.new_node }, { t with pc := PC.entry }) := by
  simp [thread_step, hpc, operation_compare_exchange_strong, h]

theorem pending_set {ts : List Thread} {i : Nat} {t : Thread} (hi : ts[i]? = some t)
    (t' : Thread) :
    ∃ pre post, pending ts = pre ++ t.pending ++ post ∧
      pending (ts.set i t') = pre ++ t'.pending ++ post := by
  induction ts generalizing i with
  | nil => simp at hi
  | cons u ts ih =>
    cases i with
    | zero =>
      simp only [List.getElem?_cons_zero, Option.some.injEq] at hi
      subst hi
      exact ⟨[], pending ts, by simp [pending], by simp [pending]⟩
    | succ i =>
      simp only [List.getElem?_cons_succ] at hi
      obtain ⟨pre, post, h1, h2⟩ := ih hi
      refine ⟨u.pending ++ pre, post, ?_, ?_⟩
      · simp [pending, h1]
      · simp [pending, h2]

/-- Every step keeps the invariant; the chain stays as it is or gains one node
at the front, and what is linked plus what is pending stays the same. -/
theorem Inv.step {s : State} {l : List (Nat × Int)} (hinv : Inv s l) (i : Nat) :
    ∃ l', Inv (s.step i) l' ∧
      (l'.map Prod.snd ++ pending (s.step i).threads).Perm (l.map Prod.snd ++ pending s.threads) ∧
      (l' = l ∨ ∃ t, s.threads[i]? = some t ∧ t.pc = PC.cas ∧ s.mem.head = t.old_head ∧
        l' = (t.new_node, t.x) :: l) := by
  cases hi : s.threads[i]? with
  | none =>
    rw [State.step_none hi]
    exact ⟨l, hinv, List.Perm.refl _, Or.inl rfl⟩
  | some t =>
    rw [State.step_eq hi]
    obtain ⟨pre, post, hp, hp'⟩ := pending_set hi (thread_step s.mem t).2
    -- the cases where the chain stays as it is and the thread's pending values too
    have same : ∀ heap' t', thread_step s.mem t = ({ heap := heap', head := s.mem.head }, t') →
        t'.pending = t.pending →
        Inv { mem := { heap := heap', head := s.mem.head }, threads := s.threads.set i t' } l →
        ∃ l', Inv { mem := (thread_step s.mem t).1,
                    threads := s.threads.set i (thread_step s.mem t).2 } l' ∧
          (l'.map Prod.snd ++ pending (s.threads.set i (thread_step s.mem t).2)).Perm
            (l.map Prod.snd ++ pending s.threads) ∧
          (l' = l ∨ ∃ t0, some t = some t0 ∧ t0.pc = PC.cas ∧ s.mem.head = t0.old_head ∧
            l' = (t0.new_node, t0.x) :: l) := by
      intro heap' t' hstep hpend h
      refine ⟨l, ?_, ?_, Or.inl rfl⟩
      · rw [hstep]; exact h
      · rw [hp', hp, hstep, hpend]
    have hlt := hinv.chain.lt_length
    cases hpc : t.pc with
    | entry =>
      cases htodo : t.todo with
      | nil =>
        refine same s.mem.heap t (thread_step_entry_nil hpc htodo) rfl ?_
        exact hinv.step_core hi _ _ _ _ (Nat.le_refl _) (fun _ _ _ => rfl) hinv.chain hinv.nodup
          (fun a ha => Or.inl ha) (fun h => absurd hpc h) (fun _ h => absurd hpc h)
          (fun _ h => by rw [hpc] at h; cases h)
      | cons x rest =>
        refine same _ _ (thread_step_entry_cons hpc htodo) ?_ ?_
        · simp [Thread.pending, hpc, htodo]
        · refine hinv.step_core hi _ _ _ _ (by simp) ?_ ?_ hinv.nodup (fun a ha => Or.inl ha)
            ?_ ?_ ?_
          · intro a ha _
            exact List.getElem?_append_left ha
          · exact hinv.chain.frame fun a ha => List.getElem?_append_left (hlt a ha)
          · intro _
            refine ⟨by simp, ?_, Or.inr (Nat.le_refl _)⟩
            intro hmem
            exact Nat.lt_irrefl _ (hlt _ hmem)
          · intro n _ h; exact absurd rfl h
          · intro n h; cases h
    | set_value =>
      obtain ⟨h1, h2⟩ := hinv.own i t hi (by rw [hpc]; decide)
      refine same _ _ (thread_step_set_value hpc) ?_ ?_
      · simp [Thread.pending, hpc]
      · refine hinv.step_core hi _ _ _ _ (by rw [length_write_value]) ?_ ?_ hinv.nodup
          (fun a ha => Or.inl ha) ?_ ?_ ?_
        · intro a _ ha
          rcases ha with ha | ha
          · rw [hpc] at ha; cases ha
          · exact getElem?_write_value_ne _ _ _ _ ha
        · exact hinv.chain.frame fun a ha =>
            getElem?_write_value_ne _ _ _ _ (fun e => h2 (e ▸ ha))
        · intro _
          exact ⟨by rw [length_write_value]; exact h1, h2, Or.inl ⟨by rw [hpc]; decide, rfl⟩⟩
        · intro n _ _ hn
          obtain ⟨n0, hn0⟩ : ∃ n0, s.mem.heap[t.new_node]? = some n0 :=
            ⟨_, List.getElem?_eq_getElem h1⟩
          have := getElem?_write_value_self _ _ t.x _ hn0
          simp only at hn
          rw [this] at hn
          cases hn
          rfl
        · intro n h; cases h
    | load_head =>
      obtain ⟨h1, h2⟩ := hinv.own i t hi (by rw [hpc]; decide)
      refine same _ _ (thread_step_load_head hpc) ?_ ?_
      · simp [Thread.pending, hpc]
      · refine hinv.step_core hi _ _ _ _ (Nat.le_refl _) (fun _ _ _ => rfl) hinv.chain hinv.nodup
          (fun a ha => Or.inl ha) ?_ ?_ ?_
        · intro _
          exact ⟨h1, h2, Or.inl ⟨by rw [hpc]; decide, rfl⟩⟩
        · intro n _ _ hn
          exact hinv.val i t n hi (by rw [hpc]; decide) (by rw [hpc]; decide) hn
        · intro n h; cases h
    | set_next =>
      obtain ⟨h1, h2⟩ := hinv.own i t hi (by rw [hpc]; decide)
      refine same _ _ (thread_step_set_next hpc) ?_ ?_
      · simp [Thread.pending, hpc]
      · refine hinv.step_core hi _ _ _ _ (by rw [length_write_next]) ?_ ?_ hinv.nodup
          (fun a ha => Or.inl ha) ?_ ?_ ?_
        · intro a _ ha
          rcases ha with ha | ha
          · rw [hpc] at ha; cases ha
          · exact getElem?_write_next_ne _ _ _ _ ha
        · exact hinv.chain.frame fun a ha =>
            getElem?_write_next_ne _ _ _ _ (fun e => h2 (e ▸ ha))
        · intro _
          exact ⟨by rw [length_write_next]; exact h1, h2, Or.inl ⟨by rw [hpc]; decide, rfl⟩⟩
        · intro n _ _ hn
          obtain ⟨n0, hn0⟩ : ∃ n0, s.mem.heap[t.new_node]? = some n0 :=
            ⟨_, List.getElem?_eq_getElem h1⟩
          have := getElem?_write_next_self _ _ t.old_head _ hn0
          simp only at hn
          rw [this] at hn
          cases hn
          exact hinv.val i t n0 hi (by rw [hpc]; decide) (by rw [hpc]; decide) hn0
        · intro n _ hn
          obtain ⟨n0, hn0⟩ : ∃ n0, s.mem.heap[t.new_node]? = some n0 :=
            ⟨_, List.getElem?_eq_getElem h1⟩
          have := getElem?_write_next_self _ _ t.old_head _ hn0
          simp only at hn
          rw [this] at hn
          cases hn
          rfl
    | cas =>
      obtain ⟨h1, h2⟩ := hinv.own i t hi (by rw [hpc]; decide)
      by_cases hhead : s.mem.head = t.old_head
      · -- the compare-and-swap succeeds: the node is linked at the front
        have hn0 : s.mem.heap[t.new_node]? = some s.mem.heap[t.new_node] :=
          List.getElem?_eq_getElem h1
        have hv := hinv.val i t _ hi (by rw [hpc]; decide) (by rw [hpc]; decide) hn0
        have hx := hinv.nxt i t _ hi hpc hn0
        have hnode : s.mem.heap[t.new_node]? =
            some { value := some t.x, next := some s.mem.head } := by
          rw [hn0, hhead, ← hv, ← hx]
        refine ⟨(t.new_node, t.x) :: l, ?_, ?_, Or.inr ⟨t, rfl, hpc, hhead, rfl⟩⟩
        · rw [thread_step_cas_ok hpc hhead]
          refine hinv.step_core hi _ _ _ _ (Nat.le_refl _) (fun _ _ _ => rfl)
            ⟨rfl, s.mem.head, hnode, hinv.chain⟩ ?_ ?_ (fun h => absurd rfl h)
            (fun _ h => absurd rfl h) (fun _ h => by cases h)
          · simp only [List.map_cons, List.nodup_cons]
            exact ⟨h2, hinv.nodup⟩
          · intro a ha
            simp only [List.map_cons, List.mem_cons] at ha
            rcases ha with ha | ha
            · exact Or.inr ⟨by rw [hpc]; decide, ha⟩
            · exact Or.inl ha
        · rw [hp', hp, thread_step_cas_ok hpc hhead]
          simp only [Thread.pending, hpc, if_true, List.map_cons]
          rw [List.perm_iff_count]
          intro a
          simp only [List.count_cons, List.count_append, reduceCtorEq, if_false]
          omega
      · refine same _ _ (thread_step_cas_fail hpc hhead) ?_ ?_
        · simp [Thread.pending, hpc]
        · refine hinv.step_core hi _ _ _ _ (Nat.le_refl _) (fun _ _ _ => rfl) hinv.chain hinv.nodup
            (fun a ha => Or.inl ha) ?_ ?_ ?_
          · intro _
            exact ⟨h1, h2, Or.inl ⟨by rw [hpc]; decide, rfl⟩⟩
          · intro n _ _ hn
            exact hinv.val i t n hi (by rw [hpc]; decide) (by rw [hpc]; decide) hn
          · intro n h; cases h

/-! ### Reachable states -/

theorem IsChain.cells_eq {heap heap' : List Node} {p p' : Ptr} {l : List (Nat × Int)}
    (h : IsChain heap p l) (h' : IsChain heap' p' l) :
    p = p' ∧ ∀ a ∈ l.map Prod.fst, heap'[a]? = heap[a]? := by
  induction l generalizing p p' with
  | nil =>
    have h1 : p = none := h
    have h2 : p' = none := h'
    exact ⟨by rw [h1, h2], by simp⟩
  | cons c l ih =>
    obtain ⟨a, v⟩ := c
    obtain ⟨hp, q, hq, hl⟩ := h
    obtain ⟨hp', q', hq', hl'⟩ := h'
    obtain ⟨hqq, hcells⟩ := ih hl hl'
    refine ⟨by rw [hp, hp'], ?_⟩
    intro b hb
    simp only [List.map_cons, List.mem_cons] at hb
    rcases hb with rfl | hb
    · rw [hq, hq', hqq]
    · exact hcells b hb

theorem length_le_of_nodup_of_lt {l : List Nat} {n : Nat} (hnd : l.Nodup)
    (h : ∀ a ∈ l, a < n) : l.length ≤ n := by
  have := (hnd.subperm fun a ha => List.mem_range.2 (h a ha)).length_le
  simpa using this

theorem Inv.length_le {s : State} {l : List (Nat × Int)} (hinv : Inv s l) :
    l.length ≤ s.mem.heap.length := by
  have := length_le_of_nodup_of_lt hinv.nodup hinv.chain.lt_length
  simpa using this

theorem Inv.chain_eq {s : State} {l : List (Nat × Int)} (hinv : Inv s l) :
    s.mem.chain = some l :=
  (chain_from_eq_some_iff _ _ _ _).2 ⟨hinv.chain, hinv.length_le⟩

theorem Inv.values_eq {s : State} {l : List (Nat × Int)} (hinv : Inv s l) :
    s.mem.values = some (l.map Prod.snd) :=
  Mem.values_of_isChain hinv.chain hinv.length_le

theorem getElem?_init {calls : List (List Int)} {i : Nat} {t : Thread}
    (h : (State.init calls).threads[i]? = some t) : t.pc = PC.entry := by
  simp only [State.init, List.getElem?_map, Option.map_eq_some'] at h
  obtain ⟨xs, _, rfl⟩ := h
  rfl

theorem Inv.init (calls : List (List Int)) : Inv (State.init calls) [] := by
  constructor
  · rfl
  · simp
  · intro i t hi hpc; exact absurd (getElem?_init hi) hpc
  · intro i j ti tj hi _ _ hpc; exact absurd (getElem?_init hi) hpc
  · intro i t n hi hpc; exact absurd (getElem?_init hi) hpc
  · intro i t n hi hpc; rw [getElem?_init hi] at hpc; cases hpc

theorem pending_init (calls : List (List Int)) :
    pending (State.init calls).threads = calls.flatten := by
  induction calls with
  | nil => rfl
  | cons xs calls ih =>
    simp only [State.init, List.map_cons, pending, List.flatten_cons] at ih ⊢
    rw [ih]
    rfl

theorem pending_of_all_returned {s : State} (h : s.all_returned) : pending s.threads = [] := by
  unfold State.all_returned at h
  generalize s.threads = ts at h
  induction ts with
  | nil => rfl
  | cons t ts ih =>
    have ht := h t (by simp)
    simp only [pending, Thread.pending, ht.1, ht.2, if_true, List.nil_append]
    exact ih fun u hu => h u (by simp [hu])

theorem State.run_cons (s : State) (i : Nat) (sched : List Nat) :
    s.run (i :: sched) = (s.step i).run sched := rfl

theorem State.run_append (s : State) (sched sched' : List Nat) :
    s.run (sched ++ sched') = (s.run sched).run sched' := by
  simp [State.run, List.foldl_append]

/-- Along any interleaving the invariant is kept, the chain only grows at the
front, linked plus pending values stay the same, and a linked node is never
written again. -/
theorem Inv.run {s : State} {l : List (Nat × Int)} (hinv : Inv s l) (sched : List Nat) :
    ∃ l', Inv (s.run sched) l' ∧
      (l'.map Prod.snd ++ pending (s.run sched).threads).Perm
        (l.map Prod.snd ++ pending s.threads) ∧
      l <:+ l' ∧ ∀ a ∈ l.map Prod.fst, (s.run sched).mem.heap[a]? = s.mem.heap[a]? := by
  induction sched generalizing s l with
  | nil => exact ⟨l, hinv, List.Perm.refl _, List.suffix_refl l, fun _ _ => rfl⟩
  | cons i sched ih =>
    obtain ⟨l1, hinv1, hperm1, hl1⟩ := hinv.step i
    obtain ⟨l2, hinv2, hperm2, hsuf2, hcells2⟩ := ih hinv1
    have hsuf1 : l <:+ l1 := by
      rcases hl1 with rfl | ⟨t, _, _, _, rfl⟩
      · exact List.suffix_refl _
      · exact List.suffix_cons _ _
    have hcells1 : ∀ a ∈ l.map Prod.fst, (s.step i).mem.heap[a]? = s.mem.heap[a]? := by
      rcases hl1 with rfl | ⟨t, _, _, _, rfl⟩
      · exact (hinv.chain.cells_eq hinv1.chain).2
      · obtain ⟨_, q, _, hq⟩ := hinv1.chain
        exact (hinv.chain.cells_eq hq).2
    refine ⟨l2, hinv2, hperm2.trans hperm1, hsuf1.trans hsuf2, ?_⟩
    intro a ha
    rw [State.run_cons, hcells2 a ?_, hcells1 a ha]
    obtain ⟨k, rfl⟩ := hsuf1
    simp only [List.map_append, List.mem_append]
    exact Or.inr ha

theorem Inv.reach (calls : List (List Int)) (sched : List Nat) :
    ∃ l, Inv ((State.init calls).run sched) l ∧
      (l.map Prod.snd ++ pending ((State.init calls).run sched).threads).Perm calls.flatten := by
  obtain ⟨l, hinv, hperm, _, _⟩ := (Inv.init calls).run sched
  refine ⟨l, hinv, ?_⟩
  rw [pending_init] at hperm
  simpa using hperm

theorem Inv.node_at_cas {s : State} {l : List (Nat × Int)} (hinv : Inv s l) {i : Nat}
    {t : Thread} (hi : s.threads[i]? = some t) (hpc : t.pc = PC.cas) :
    s.mem.heap[t.new_node]? = some { value := some t.x, next := some t.old_head } := by
  obtain ⟨h1, _⟩ := hinv.own i t hi (by rw [hpc]; decide)
  have hn0 : s.mem.heap[t.new_node]? = some s.mem.heap[t.new_node] := List.getElem?_eq_getElem h1
  have hv := hinv.val i t _ hi (by rw [hpc]; decide) (by rw [hpc]; decide) hn0
  have hx := hinv.nxt i t _ hi hpc hn0
  rw [hn0, ← hv, ← hx]

theorem getElem?_set_self_of_getElem? {α : Type} {ts : List α} {i : Nat} {t t' : α}
    (hi : ts[i]? = some t) : (ts.set i t')[i]? = some t' := by
  have hlt : i < ts.length := (List.getElem?_eq_some.1 hi).1
  simp [List.getElem?_set, hlt]

/-! ### The claims on `atomic_list::push_front` -/

/-- C1: called single-threaded on each element of `xs` in order, from the
empty list, `push_front` returns each time within one loop iteration and leaves
a chain whose values, read from `head` through the `next` pointers, are
`xs.reverse`; for `[1, 2, 3]` the values read front to back are `3, 2, 1`. -/
theorem push_front_lifo (xs : List Int) :
    (push_all 1 Mem.empty xs).bind Mem.values = some xs.reverse ∧
    (push_all 1 Mem.empty [1, 2, 3]).bind Mem.values = some [3, 2, 1] := by
  have key : ∀ ys : List Int, (push_all 1 Mem.empty ys).bind Mem.values = some ys.reverse := by
    intro ys
    obtain ⟨m', l', h1, h2, h3, h4⟩ :=
      push_all_chain 0 ys Mem.empty [] rfl (Nat.zero_le _)
    rw [h1, Option.some_bind, Mem.values_of_isChain h2 h3, h4]
    simp
  exact ⟨key xs, key [1, 2, 3]⟩

/-- C2: for any assignment of `push_front` calls to threads (`calls[i]` are the
arguments of thread `i`, in order) and any interleaving `sched` of their atomic
steps, once every call has returned the chain reachable from `head` has as many
nodes as there were calls, all at distinct addresses, and its values are the
pushed values up to order (equal as multisets). -/
theorem push_front_no_push_lost (calls : List (List Int)) (sched : List Nat)
    (hret : ((State.init calls).run sched).all_returned) :
    ∃ l, ((State.init calls).run sched).mem.chain = some l ∧
      l.length = calls.flatten.length ∧ (l.map Prod.fst).Nodup ∧
      (l.map Prod.snd).Perm calls.flatten := by
  obtain ⟨l, hinv, hperm⟩ := Inv.reach calls sched
  rw [pending_of_all_returned hret, List.append_nil] at hperm
  refine ⟨l, hinv.chain_eq, ?_, hinv.nodup, hperm⟩
  have := hperm.length_eq
  simpa using this

/-- Witness for C2: two threads, three calls, an interleaving in which a
compare-and-swap fails and is retried. -/
theorem push_front_no_push_lost_witness :
    ((State.init [[1, 2], [3]]).run
        [0, 1, 0, 1, 0, 1, 0, 1, 0, 1, 1, 1, 0, 0, 0, 0, 0]).all_returned ∧
    ∃ l, ((State.init [[1, 2], [3]]).run
        [0, 1, 0, 1, 0, 1, 0, 1, 0, 1, 1, 1, 0, 0, 0, 0, 0]).mem.chain = some l ∧
      l.length = [[1, 2], [3]].flatten.length ∧ (l.map Prod.fst).Nodup ∧
      (l.map Prod.snd).Perm [[1, 2], [3]].flatten :=
  ⟨by decide, push_front_no_push_lost [[1, 2], [3]]
    [0, 1, 0, 1, 0, 1, 0, 1, 0, 1, 1, 1, 0, 0, 0, 0, 0] (by decide)⟩

/-- C5: in any reachable state, a thread about to attempt the compare-and-swap
has its new node holding `x` and pointing to `old_head`. If `head` differs from
`old_head` the attempt changes no memory, reloads `old_head` with the value of
`head` it saw and goes back to the loop body. If `head` equals `old_head` the
attempt makes `head` the new node and the chain becomes the new node followed
by the whole chain that was reachable just before. A thread at the loop body
writes `old_head` into the `next` field of its new node and goes to the
compare-and-swap. -/
theorem push_front_retry_links_current_head (calls : List (List Int)) (sched : List Nat)
    (i : Nat) (t : Thread) (hi : ((State.init calls).run sched).threads[i]? = some t) :
    (t.pc = PC.cas →
      ((State.init calls).run sched).mem.heap[t.new_node]? =
        some { value := some t.x, next := some t.old_head } ∧
      (((State.init calls).run sched).mem.head ≠ t.old_head →
        (((State.init calls).run sched).step i).mem = ((State.init calls).run sched).mem ∧
        (((State.init calls).run sched).step i).threads[i]? =
          some { t with pc := PC.set_next,
                        old_head := ((State.init calls).run sched).mem.head }) ∧
      (((State.init calls).run sched).mem.head = t.old_head →
        (((State.init calls).run sched).step i).mem.head = some t.new_node ∧
        (((State.init calls).run sched).step i).mem.heap =
          ((State.init calls).run sched).mem.heap ∧
        (((State.init calls).run sched).step i).threads[i]? = some { t with pc := PC.entry } ∧
        ∃ l, ((State.init calls).run sched).mem.chain = some l ∧
          (((State.init calls).run sched).step i).mem.chain = some ((t.new_node, t.x) :: l))) ∧
    (t.pc = PC.set_next →
      (((State.init calls).run sched).step i).mem.heap[t.new_node]? =
        some { value := some t.x, next := some t.old_head } ∧
      (((State.init calls).run sched).step i).mem.head =
        ((State.init calls).run sched).mem.head ∧
      (((State.init calls).run sched).step i).threads[i]? = some { t with pc := PC.cas }) := by
  obtain ⟨l, hinv, _⟩ := Inv.reach calls sched
  generalize (State.init calls).run sched = s at hi hinv
  refine ⟨fun hpc => ⟨hinv.node_at_cas hi hpc, ?_, ?_⟩, fun hpc => ?_⟩
  · intro hne
    rw [State.step_eq hi, thread_step_cas_fail hpc hne]
    exact ⟨rfl, getElem?_set_self_of_getElem? hi⟩
  · intro heq
    obtain ⟨l', hinv', _, hl'⟩ := hinv.step i
    have hstep : s.step i =
        { mem := { heap := s.mem.heap, head := some t.new_node },
          threads := s.threads.set i { t with pc := PC.entry } } := by
      rw [State.step_eq hi, thread_step_cas_ok hpc heq]
    refine ⟨by rw [hstep], by rw [hstep], ?_, l, hinv.chain_eq, ?_⟩
    · rw [hstep]; exact getElem?_set_self_of_getElem? hi
    · rw [hinv'.chain_eq]
      rcases hl' with rfl | ⟨t0, ht0, _, _, rfl⟩
      · -- the chain cannot have stayed: its head is now the new node
        exfalso
        have hc := hinv'.chain
        rw [hstep] at hc
        cases l' with
        | nil => cases (show (some t.new_node : Ptr) = none from hc)
        | cons c l0 =>
          obtain ⟨a, v⟩ := c
          obtain ⟨ha, _⟩ := hc
          cases ha
          exact (hinv.own i t hi (by rw [hpc]; decide)).2 (by simp)
      · rw [hi] at ht0
        cases ht0
        rfl
  · have hinv' : ∃ l', Inv (s.step i) l' := by
      obtain ⟨l', h, _⟩ := hinv.step i
      exact ⟨l', h⟩
    obtain ⟨l', hinv'⟩ := hinv'
    have hstep : s.step i =
        { mem := { heap := write_next s.mem.heap t.new_node t.old_head, head := s.mem.head },
          threads := s.threads.set i { t with pc := PC.cas } } := by
      rw [State.step_eq hi, thread_step_set_next hpc]
    have hi' : (s.step i).threads[i]? = some { t with pc := PC.cas } := by
      rw [hstep]; exact getElem?_set_self_of_getElem? hi
    have hnode := hinv'.node_at_cas hi' rfl
    exact ⟨hnode, by rw [hstep], hi'⟩

/-- Witness for C5: after this interleaving thread 1 is about to attempt a
compare-and-swap with a stale `old_head`. -/
theorem push_front_retry_links_current_head_witness :
    ((State.init [[1], [2]]).run [0, 1, 0, 1, 0, 1, 0, 1, 0]).threads[1]? =
      some { todo := [], pc := PC.cas, x := 2, new_node := 1, old_head := none } ∧
    ((State.init [[1], [2]]).run [0, 1, 0, 1, 0, 1, 0, 1, 0]).mem.head ≠ none ∧
    (((State.init [[1], [2]]).run [0, 1, 0, 1, 0, 1, 0, 1, 0]).step 1).threads[1]? =
      some { todo := [], pc := PC.set_next, x := 2, new_node := 1, old_head := some 0 } :=
  ⟨by decide, by decide,
    (((push_front_retry_links_current_head [[1], [2]] [0, 1, 0, 1, 0, 1, 0, 1, 0] 1
      { todo := [], pc := PC.cas, x := 2, new_node := 1, old_head := none }
      (by decide)).1 rfl).2.1 (by decide)).2⟩

/-- C6: single-threaded, `push_front(x)` on any memory returns within one loop
iteration with every node allocated before the call as it was, one new node
holding `x` and the old `head`, and `head` at the new node. In the concurrent
program a step of a thread changes no allocated node other than the new node of
that thread's call, and a node that is in the chain reachable from `head` at
some moment, the chain of a reachable state, has the same fields after any
further steps of any threads. -/
theorem push_front_frame :
    (∀ (m : Mem) (x : Int),
      push_front 1 m x =
        some { heap := m.heap ++ [{ value := some x, next := some m.head }],
               head := some m.heap.length }) ∧
    (∀ (s : State) (i : Nat) (t : Thread), s.threads[i]? = some t →
      ∀ a, a < s.mem.heap.length → (t.pc = PC.entry ∨ a ≠ t.new_node) →
        (s.step i).mem.heap[a]? = s.mem.heap[a]?) ∧
    (∀ (calls : List (List Int)) (sched sched' : List Nat) (l : List (Nat × Int)),
      ((State.init calls).run sched).mem.chain = some l →
      ∀ a ∈ l.map Prod.fst,
        ((State.init calls).run (sched ++ sched')).mem.heap[a]? =
          ((State.init calls).run sched).mem.heap[a]?) := by
  refine ⟨fun m x => push_front_eq 0 m x, ?_, ?_⟩
  · intro s i t hi a ha hor
    rw [State.step_eq hi]
    cases hpc : t.pc with
    | entry =>
      cases htodo : t.todo with
      | nil => rw [thread_step_entry_nil hpc htodo]
      | cons x rest =>
        rw [thread_step_entry_cons hpc htodo]
        exact List.getElem?_append_left ha
    | set_value =>
      rw [thread_step_set_value hpc]
      rcases hor with h | h
      · rw [hpc] at h; cases h
      · exact getElem?_write_value_ne _ _ _ _ h
    | load_head => rw [thread_step_load_head hpc]
    | set_next =>
      rw [thread_step_set_next hpc]
      rcases hor with h | h
      · rw [hpc] at h; cases h
      · exact getElem?_write_next_ne _ _ _ _ h
    | cas =>
      by_cases hhead : s.mem.head = t.old_head
      · rw [thread_step_cas_ok hpc hhead]
      · rw [thread_step_cas_fail hpc hhead]
  · intro calls sched sched' l hl a ha
    obtain ⟨l0, hinv, _⟩ := Inv.reach calls sched
    rw [hinv.chain_eq] at hl
    cases hl
    obtain ⟨_, _, _, _, hcells⟩ := hinv.run sched'
    rw [State.run_append]
    exact hcells a ha

/-- Witness for C6: after thread 0 has linked its node (address 0), thread 1
links a second node; node 0 is as it was. -/
theorem push_front_frame_witness :
    ((State.init [[1], [2]]).run [0, 0, 0, 0, 0]).mem.chain = some [(0, 1)] ∧
    ((State.init [[1], [2]]).run ([0, 0, 0, 0, 0] ++ [1, 1, 1, 1, 1])).mem.chain =
      some [(1, 2), (0, 1)] ∧
    ((State.init [[1], [2]]).run ([0, 0, 0, 0, 0] ++ [1, 1, 1, 1, 1])).mem.heap[0]? =
      ((State.init [[1], [2]]).run [0, 0, 0, 0, 0]).mem.heap[0]? :=
  ⟨by decide, by decide,
    push_front_frame.2.2 [[1], [2]] [0, 0, 0, 0, 0] [1, 1, 1, 1, 1] [(0, 1)] (by decide) 0
      (by decide)⟩

/-! ### Progress of the retry loop -/

theorem State.step_other {s : State} {i j : Nat} (hij : j ≠ i) :
    (s.step j).threads[i]? = s.threads[i]? := by
  cases hj : s.threads[j]? with
  | none => rw [State.step_none hj]
  | some u =>
    rw [State.step_eq hj]
    exact List.getElem?_set_ne hij

theorem State.step_head_of_not_cas_succeeds {s : State} {j : Nat} {u : Thread}
    (hj : s.threads[j]? = some u) (h : ¬ u.cas_succeeds s.mem) :
    (s.step j).mem.head = s.mem.head := by
  rw [State.step_eq hj]
  cases hpc : u.pc with
  | entry =>
    cases htodo : u.todo with
    | nil => rw [thread_step_entry_nil hpc htodo]
    | cons x rest => rw [thread_step_entry_cons hpc htodo]
  | set_value => rw [thread_step_set_value hpc]
  | load_head => rw [thread_step_load_head hpc]
  | set_next => rw [thread_step_set_next hpc]
  | cas =>
    have hne : s.mem.head ≠ u.old_head := fun e => h ⟨hpc, e⟩
    rw [thread_step_cas_fail hpc hne]

theorem Inv.cas_changes_head {s : State} {l : List (Nat × Int)} (hinv : Inv s l) {j : Nat}
    {u : Thread} (hj : s.threads[j]? = some u) (hs : u.cas_succeeds s.mem) :
    (s.step j).mem.head ≠ s.mem.head := by
  rw [State.step_eq hj, thread_step_cas_ok hs.1 hs.2]
  intro e
  have hc := hinv.chain
  rw [← e] at hc
  cases l with
  | nil => cases (show (some u.new_node : Ptr) = none from hc)
  | cons c l0 =>
    obtain ⟨a, v⟩ := c
    obtain ⟨ha, _⟩ := hc
    cases ha
    exact (hinv.own j u hj (by rw [hs.1]; decide)).2 (by simp)

theorem fresh_step_self {s : State} {i : Nat} {t : Thread} (hi : s.threads[i]? = some t)
    (hf : t.fresh s.mem) :
    ∃ t', (s.step i).threads[i]? = some t' ∧ t'.fresh (s.step i).mem := by
  rw [State.step_eq hi]
  refine ⟨_, getElem?_set_self_of_getElem? hi, ?_⟩
  cases hpc : t.pc with
  | entry =>
    cases htodo : t.todo with
    | nil =>
      rw [thread_step_entry_nil hpc htodo]
      exact hf
    | cons x rest =>
      rw [thread_step_entry_cons hpc htodo]
      rintro (h | h) <;> cases h
  | set_value =>
    rw [thread_step_set_value hpc]
    rintro (h | h) <;> cases h
  | load_head =>
    rw [thread_step_load_head hpc]
    intro _; rfl
  | set_next =>
    rw [thread_step_set_next hpc]
    intro _
    exact hf (Or.inl hpc)
  | cas =>
    rw [thread_step_cas_ok hpc (hf (Or.inr hpc)).symm]
    rintro (h | h) <;> cases h

theorem fresh_step {s : State} {i : Nat} {t : Thread} (hi : s.threads[i]? = some t)
    (hf : t.fresh s.mem) (j : Nat) :
    (j ≠ i ∧ ∃ u, s.threads[j]? = some u ∧ u.cas_succeeds s.mem) ∨
    ∃ t', (s.step j).threads[i]? = some t' ∧ t'.fresh (s.step j).mem := by
  by_cases hij : j = i
  · subst hij
    exact Or.inr (fresh_step_self hi hf)
  · cases hj : s.threads[j]? with
    | none =>
      rw [State.step_none hj]
      exact Or.inr ⟨t, hi, hf⟩
    | some u =>
      by_cases hs : u.cas_succeeds s.mem
      · exact Or.inl ⟨hij, u, rfl, hs⟩
      · refine Or.inr ⟨t, by rw [State.step_other hij]; exact hi, ?_⟩
        intro hpc
        rw [State.step_head_of_not_cas_succeeds hj hs]
        exact hf hpc

theorem fresh_run (sched : List Nat) {s : State} {l : List (Nat × Int)} (hinv : Inv s l)
    {i : Nat} {t : Thread} (hi : s.threads[i]? = some t) (hf : t.fresh s.mem) :
    (∃ t', (s.run sched).threads[i]? = some t' ∧ t'.fresh (s.run sched).mem) ∨
    ∃ k j u, sched[k]? = some j ∧ j ≠ i ∧ (s.run (sched.take k)).threads[j]? = some u ∧
      u.cas_succeeds (s.run (sched.take k)).mem ∧
      (s.run (sched.take (k + 1))).mem.head ≠ (s.run (sched.take k)).mem.head := by
  induction sched generalizing s l t with
  | nil => exact Or.inl ⟨t, hi, hf⟩
  | cons j sched ih =>
    rcases fresh_step hi hf j with ⟨hij, u, hj, hs⟩ | ⟨t', hi', hf'⟩
    · exact Or.inr ⟨0, j, u, List.getElem?_cons_zero, hij, hj, hs, hinv.cas_changes_head hj hs⟩
    · obtain ⟨l', hinv', _⟩ := hinv.step j
      rcases ih hinv' hi' hf' with h | ⟨k, j', u, h1, h2, h3, h4, h5⟩
      · exact Or.inl h
      · exact Or.inr ⟨k + 1, j', u, List.getElem?_cons_succ.trans h1, h2, h3, h4, h5⟩

theorem Thread.stage_congr {m m' : Mem} (h : m'.head = m.head) (t : Thread) (x : Int)
    (rest : List Int) (n : Nat) : t.stage m' x rest n ↔ t.stage m x rest n := by
  unfold Thread.stage
  split <;> simp [h]

theorem stage_step_self {s : State} {i : Nat} {t : Thread} {x : Int} {rest : List Int}
    {n : Nat} (hi : s.threads[i]? = some t) (hst : t.stage s.mem x rest n) (hn : n < 5) :
    ∃ t', (s.step i).threads[i]? = some t' ∧ t'.stage (s.step i).mem x rest (n + 1) := by
  rw [State.step_eq hi]
  refine ⟨_, getElem?_set_self_of_getElem? hi, ?_⟩
  match n, hst, hn with
  | 0, hst, _ =>
    obtain ⟨hpc, htodo⟩ := hst
    rw [thread_step_entry_cons hpc htodo]
    exact ⟨rfl, rfl⟩
  | 1, hst, _ =>
    obtain ⟨hpc, htodo⟩ := hst
    rw [thread_step_set_value hpc]
    exact ⟨rfl, htodo⟩
  | 2, hst, _ =>
    obtain ⟨hpc, htodo⟩ := hst
    rw [thread_step_load_head hpc]
    exact ⟨rfl, htodo, rfl⟩
  | 3, hst, _ =>
    obtain ⟨hpc, htodo, hold⟩ := hst
    rw [thread_step_set_next hpc]
    exact ⟨rfl, htodo, hold⟩
  | 4, hst, _ =>
    obtain ⟨hpc, htodo, hold⟩ := hst
    rw [thread_step_cas_ok hpc hold.symm]
    exact ⟨rfl, htodo⟩

theorem stage_run (sched : List Nat) {s : State} {i : Nat} {t : Thread} {x : Int}
    {rest : List Int} {n : Nat} (hi : s.threads[i]? = some t) (hst : t.stage s.mem x rest n)
    (hquiet : ∀ k j, sched[k]? = some j → j ≠ i →
      (s.run (sched.take (k + 1))).mem.head = (s.run (sched.take k)).mem.head)
    (hn : n + sched.count i ≤ 5) :
    ∃ t', (s.run sched).threads[i]? = some t' ∧
      t'.stage (s.run sched).mem x rest (n + sched.count i) := by
  induction sched generalizing s t n with
  | nil => exact ⟨t, hi, hst⟩
  | cons j sched ih =>
    have htail : ∀ k j', sched[k]? = some j' → j' ≠ i →
        ((s.step j).run (sched.take (k + 1))).mem.head =
          ((s.step j).run (sched.take k)).mem.head :=
      fun k j' hk hj' => hquiet (k + 1) j' (List.getElem?_cons_succ.trans hk) hj'
    by_cases hij : j = i
    · subst hij
      rw [List.count_cons_self] at hn ⊢
      obtain ⟨t1, hi1, hst1⟩ := stage_step_self hi hst (by omega)
      obtain ⟨t', h1, h2⟩ := ih hi1 hst1 htail (by omega)
      refine ⟨t', h1, ?_⟩
      rw [State.run_cons]
      have e : n + (List.count j sched + 1) = n + 1 + List.count j sched := by omega
      rw [e]
      exact h2
    · rw [List.count_cons_of_ne fun e => hij e.symm] at hn ⊢
      have hhead : (s.step j).mem.head = s.mem.head := hquiet 0 j List.getElem?_cons_zero hij
      have hi1 : (s.step j).threads[i]? = some t := by rw [State.step_other hij]; exact hi
      exact ih hi1 ((Thread.stage_congr hhead t x rest n).2 hst) htail hn

/-- C7: (1) a snapshot step, the initial read of `head` or a failed
compare-and-swap, leaves the thread in the loop with `old_head` equal to
`head`; (2) if in a reachable state a thread in the loop has `old_head` equal to
`head` and after further steps `sched` is about to attempt a compare-and-swap
that will fail, then at some step of `sched` another thread's compare-and-swap
succeeded and changed `head`; (3) when threads contend with the current value
of `head` as their snapshot, the first to attempt succeeds; (4) if no step of
another thread modifies `head`, a call returns once its thread has taken
exactly five steps (allocation, value write, read of `head`, one loop body and
one compare-and-swap), and not before. -/
theorem push_front_progress :
    (∀ (s : State) (i : Nat) (t : Thread), s.threads[i]? = some t →
      (t.pc = PC.load_head ∨ (t.pc = PC.cas ∧ s.mem.head ≠ t.old_head)) →
      ∃ t', (s.step i).threads[i]? = some t' ∧ t'.pc = PC.set_next ∧
        t'.old_head = (s.step i).mem.head) ∧
    (∀ (calls : List (List Int)) (sched0 sched : List Nat) (i : Nat) (t t' : Thread),
      ((State.init calls).run sched0).threads[i]? = some t →
      (t.pc = PC.set_next ∨ t.pc = PC.cas) →
      t.old_head = ((State.init calls).run sched0).mem.head →
      ((State.init calls).run (sched0 ++ sched)).threads[i]? = some t' →
      t'.pc = PC.cas →
      ((State.init calls).run (sched0 ++ sched)).mem.head ≠ t'.old_head →
      ∃ k j u, sched[k]? = some j ∧ j ≠ i ∧
        ((State.init calls).run (sched0 ++ sched.take k)).threads[j]? = some u ∧
        u.pc = PC.cas ∧
        ((State.init calls).run (sched0 ++ sched.take k)).mem.head = u.old_head ∧
        ((State.init calls).run (sched0 ++ sched.take (k + 1))).mem.head ≠
          ((State.init calls).run (sched0 ++ sched.take k)).mem.head) ∧
    (∀ (s : State) (i : Nat) (round : List Nat),
      (∀ j ∈ i :: round, ∃ u, s.threads[j]? = some u ∧ u.pc = PC.cas ∧
        u.old_head = s.mem.head) →
      ∃ t, s.threads[i]? = some t ∧ (s.step i).mem.head = some t.new_node ∧
        (s.step i).threads[i]? = some { t with pc := PC.entry }) ∧
    (∀ (s : State) (i : Nat) (t : Thread) (x : Int) (rest : List Int) (sched : List Nat),
      s.threads[i]? = some t → t.pc = PC.entry → t.todo = x :: rest →
      (∀ k j, sched[k]? = some j → j ≠ i →
        (s.run (sched.take (k + 1))).mem.head = (s.run (sched.take k)).mem.head) →
      (sched.count i = 5 →
        ∃ t', (s.run sched).threads[i]? = some t' ∧ t'.pc = PC.entry ∧ t'.todo = rest) ∧
      (sched.count i < 5 →
        ∃ t', (s.run sched).threads[i]? = some t' ∧ ¬ (t'.pc = PC.entry ∧ t'.todo = rest))) := by
  refine ⟨?_, ?_, ?_, ?_⟩
  · intro s i t hi hsnap
    rw [State.step_eq hi]
    refine ⟨_, getElem?_set_self_of_getElem? hi, ?_⟩
    rcases hsnap with hpc | ⟨hpc, hne⟩
    · rw [thread_step_load_head hpc]
      exact ⟨rfl, rfl⟩
    · rw [thread_step_cas_fail hpc hne]
      exact ⟨rfl, rfl⟩
  · intro calls sched0 sched i t t' hi hpc hold hi' hpc' hne
    obtain ⟨l, hinv, _⟩ := Inv.reach calls sched0
    simp only [State.run_append] at hi' hne ⊢
    generalize (State.init calls).run sched0 = s at hi hold hinv hi' hne
    rcases fresh_run sched hinv hi (fun _ => hold) with ⟨t1, h1, hf⟩ | ⟨k, j, u, h1, h2, h3, h4, h5⟩
    · rw [hi'] at h1
      cases h1
      exact absurd (hf (Or.inr hpc')).symm hne
    · exact ⟨k, j, u, h1, h2, h3, h4.1, h4.2, h5⟩
  · intro s i round h
    obtain ⟨t, hi, hpc, hold⟩ := h i (by simp)
    refine ⟨t, hi, ?_, ?_⟩
    · rw [State.step_eq hi, thread_step_cas_ok hpc hold.symm]
    · rw [State.step_eq hi, thread_step_cas_ok hpc hold.symm]
      exact getElem?_set_self_of_getElem? hi
  · intro s i t x rest sched hi hpc htodo hquiet
    have hst : t.stage s.mem x rest 0 := ⟨hpc, htodo⟩
    constructor
    · intro hc
      obtain ⟨t', h1, h2⟩ := stage_run sched hi hst hquiet (by omega)
      rw [hc] at h2
      exact ⟨t', h1, h2⟩
    · intro hc
      obtain ⟨t', h1, h2⟩ := stage_run sched hi hst hquiet (by omega)
      refine ⟨t', h1, ?_⟩
      rintro ⟨hpc', htodo'⟩
      generalize List.count i sched = c at hc h2
      match c, hc, h2 with
      | 0, _, h2 => exact List.cons_ne_self x rest (h2.2.symm.trans htodo')
      | 1, _, h2 => rw [h2.1] at hpc'; cases hpc'
      | 2, _, h2 => rw [h2.1] at hpc'; cases hpc'
      | 3, _, h2 => rw [h2.1] at hpc'; cases hpc'
      | 4, _, h2 => rw [h2.1] at hpc'; cases hpc'

/-- Witness for C7: two threads read `head` while it is null; thread 0 links its
node first, so the compare-and-swap thread 1 is about to attempt fails, and the
step that changed `head` is found in the schedule. -/
theorem push_front_progress_witness :
    ((State.init [[1], [2]]).run ([0, 1, 0, 1, 0, 1] ++ [0, 0, 1])).mem.head ≠ none ∧
    ∃ k j u, [0, 0, 1][k]? = some j ∧ j ≠ 1 ∧
      ((State.init [[1], [2]]).run ([0, 1, 0, 1, 0, 1] ++ [0, 0, 1].take k)).threads[j]? =
        some u ∧
      u.pc = PC.cas ∧
      ((State.init [[1], [2]]).run ([0, 1, 0, 1, 0, 1] ++ [0, 0, 1].take k)).mem.head =
        u.old_head ∧
      ((State.init [[1], [2]]).run ([0, 1, 0, 1, 0, 1] ++ [0, 0, 1].take (k + 1))).mem.head ≠
        ((State.init [[1], [2]]).run ([0, 1, 0, 1, 0, 1] ++ [0, 0, 1].take k)).mem.head :=
  ⟨by decide,
    push_front_progress.2.1 [[1], [2]] [0, 1, 0, 1, 0, 1] [0, 0, 1] 1
      { todo := [], pc := PC.set_next, x := 2, new_node := 1, old_head := none }
      { todo := [], pc := PC.cas, x := 2, new_node := 1, old_head := none }
      (by decide) (Or.inl rfl) (by decide) (by decide) rfl (by decide)⟩

/-! ### Every program can run to completion -/

theorem State.run_replicate_other (s : State) {i j : Nat} (hij : j ≠ i) (n : Nat) :
    (s.run (List.replicate n j)).threads[i]? = s.threads[i]? := by
  induction n generalizing s with
  | zero => rfl
  | succ n ih =>
    rw [List.replicate_succ, State.run_cons, ih, State.step_other hij]

theorem run_one_call {s : State} {i : Nat} {t : Thread} {x : Int} {rest : List Int}
    (hi : s.threads[i]? = some t) (hpc : t.pc = PC.entry) (htodo : t.todo = x :: rest) :
    ∃ t', (s.run (List.replicate 5 i)).threads[i]? = some t' ∧ t'.pc = PC.entry ∧
      t'.todo = rest := by
  have hst : t.stage s.mem x rest 0 := ⟨hpc, htodo⟩
  have hquiet : ∀ k j, (List.replicate 5 i)[k]? = some j → j ≠ i →
      (s.run ((List.replicate 5 i).take (k + 1))).mem.head =
        (s.run ((List.replicate 5 i).take k)).mem.head := by
    intro k j hk hj
    exact absurd (List.eq_of_mem_replicate (List.getElem?_mem hk)) hj
  obtain ⟨t', h1, h2⟩ := stage_run (List.replicate 5 i) hi hst hquiet
    (by rw [List.count_replicate_self])
  rw [List.count_replicate_self] at h2
  exact ⟨t', h1, h2⟩

theorem run_all_calls (todo : List Int) {s : State} {i : Nat} {t : Thread}
    (hi : s.threads[i]? = some t) (hpc : t.pc = PC.entry) (htodo : t.todo = todo) :
    ∃ t', (s.run (List.replicate (5 * todo.length) i)).threads[i]? = some t' ∧
      t'.pc = PC.entry ∧ t'.todo = [] := by
  induction todo generalizing s t with
  | nil => exact ⟨t, hi, hpc, htodo⟩
  | cons x rest ih =>
    obtain ⟨t1, h1, hpc1, htodo1⟩ := run_one_call hi hpc htodo
    obtain ⟨t', h2, hpc2, htodo2⟩ := ih h1 hpc1 htodo1
    refine ⟨t', ?_, hpc2, htodo2⟩
    have e : 5 * (x :: rest).length = 5 + 5 * rest.length := by
      simp only [List.length_cons]; omega
    rw [e, List.replicate_add, State.run_append]
    exact h2

theorem State.run_replicate_self (n : Nat) {s : State} {i : Nat} {t : Thread}
    (hi : s.threads[i]? = some t) :
    (s.run (List.replicate n i)).mem = ((fun p => thread_step p.1 p.2)^[n] (s.mem, t)).1 ∧
    (s.run (List.replicate n i)).threads[i]? =
      some ((fun p => thread_step p.1 p.2)^[n] (s.mem, t)).2 := by
  induction n generalizing s t with
  | zero => exact ⟨rfl, hi⟩
  | succ n ih =>
    have hstep := State.step_eq hi
    have hi' : (s.step i).threads[i]? = some (thread_step s.mem t).2 := by
      rw [hstep]; exact getElem?_set_self_of_getElem? hi
    have hmem : (s.step i).mem = (thread_step s.mem t).1 := by rw [hstep]
    have := ih hi'
    rw [hmem] at this
    rw [List.replicate_succ, State.run_cons, Function.iterate_succ_apply]
    exact this

/-- A thread that runs one call alone, five steps in a row, does to the memory
what the single-threaded `push_front` does. -/
theorem run_one_call_mem {s : State} {i : Nat} {t : Thread} {x : Int} {rest : List Int}
    (hi : s.threads[i]? = some t) (hpc : t.pc = PC.entry) (htodo : t.todo = x :: rest) :
    some (s.run (List.replicate 5 i)).mem = push_front 1 s.mem x := by
  rw [(State.run_replicate_self 5 hi).1, push_front_eq]
  have e1 : thread_step s.mem t =
      (⟨s.mem.heap ++ [⟨none, none⟩], s.mem.head⟩,
       ⟨rest, PC.set_value, x, s.mem.heap.length, t.old_head⟩) :=
    thread_step_entry_cons hpc htodo
  have e2 : thread_step ⟨s.mem.heap ++ [⟨none, none⟩], s.mem.head⟩
        ⟨rest, PC.set_value, x, s.mem.heap.length, t.old_head⟩ =
      (⟨s.mem.heap ++ [⟨some x, none⟩], s.mem.head⟩,
       ⟨rest, PC.load_head, x, s.mem.heap.length, t.old_head⟩) := by
    rw [thread_step_set_value rfl]
    have hv := write_value_alloc s.mem.heap x
    simp only [alloc] at hv
    simp only [hv]
  have e3 : thread_step ⟨s.mem.heap ++ [⟨some x, none⟩], s.mem.head⟩
        ⟨rest, PC.load_head, x, s.mem.heap.length, t.old_head⟩ =
      (⟨s.mem.heap ++ [⟨some x, none⟩], s.mem.head⟩,
       ⟨rest, PC.set_next, x, s.mem.heap.length, s.mem.head⟩) :=
    thread_step_load_head rfl
  have e4 : thread_step ⟨s.mem.heap ++ [⟨some x, none⟩], s.mem.head⟩
        ⟨rest, PC.set_next, x, s.mem.heap.length, s.mem.head⟩ =
      (⟨s.mem.heap ++ [⟨some x, some s.mem.head⟩], s.mem.head⟩,
       ⟨rest, PC.cas, x, s.mem.heap.length, s.mem.head⟩) := by
    rw [thread_step_set_next rfl]
    simp only [write_next_last]
  have e5 : thread_step ⟨s.mem.heap ++ [⟨some x, some s.mem.head⟩], s.mem.head⟩
        ⟨rest, PC.cas, x, s.mem.heap.length, s.mem.head⟩ =
      (⟨s.mem.heap ++ [⟨some x, some s.mem.head⟩], some s.mem.heap.length⟩,
       ⟨rest, PC.entry, x, s.mem.heap.length, s.mem.head⟩) :=
    thread_step_cas_ok rfl rfl
  simp only [Function.iterate_succ_apply, Function.iterate_zero_apply, e1, e2, e3, e4, e5]

/-- From a state in which every thread is between calls there is a schedule
after which every call of every thread has returned. -/
theorem exists_schedule_all_returned (s : State) (hs : ∀ t ∈ s.threads, t.pc = PC.entry) :
    ∃ sched, (s.run sched).all_returned := by
  have key : ∀ k : Nat, ∃ sched,
      (∀ j t, j < k → (s.run sched).threads[j]? = some t → t.pc = PC.entry ∧ t.todo = []) ∧
      (∀ j, k ≤ j → (s.run sched).threads[j]? = s.threads[j]?) := by
    intro k
    induction k with
    | zero => exact ⟨[], fun j t hj => absurd hj (Nat.not_lt_zero j), fun _ _ => rfl⟩
    | succ k ih =>
      obtain ⟨sched, h1, h2⟩ := ih
      cases hk : s.threads[k]? with
      | none =>
        refine ⟨sched, ?_, fun j hj => h2 j (by omega)⟩
        intro j t hj hjt
        by_cases hjk : j = k
        · subst hjk
          rw [h2 j (Nat.le_refl j), hk] at hjt
          cases hjt
        · exact h1 j t (by omega) hjt
      | some t =>
        have hk1 : (s.run sched).threads[k]? = some t := by rw [h2 k (Nat.le_refl k)]; exact hk
        obtain ⟨t', h3, hpc', htodo'⟩ :=
          run_all_calls t.todo hk1 (hs t (List.getElem?_mem hk)) rfl
        refine ⟨sched ++ List.replicate (5 * t.todo.length) k, ?_, ?_⟩
        · intro j u hj hju
          rw [State.run_append] at hju
          by_cases hjk : j = k
          · subst hjk
            rw [h3] at hju
            cases hju
            exact ⟨hpc', htodo'⟩
          · rw [State.run_replicate_other _ (fun e => hjk e.symm)] at hju
            exact h1 j u (by omega) hju
        · intro j hj
          rw [State.run_append, State.run_replicate_other _ (by omega)]
          exact h2 j (by omega)
  obtain ⟨sched, h1, h2⟩ := key s.threads.length
  refine ⟨sched, ?_⟩
  intro t ht
  obtain ⟨j, hj⟩ := List.mem_iff_getElem?.1 ht
  by_cases hlt : j < s.threads.length
  · exact h1 j t hlt hj
  · rw [h2 j (by omega), List.getElem?_eq_none (by omega)] at hj
    cases hj

/-- For every assignment of calls to threads some interleaving lets every call
return. -/
theorem exists_schedule_init (calls : List (List Int)) :
    ∃ sched, ((State.init calls).run sched).all_returned := by
  apply exists_schedule_all_returned
  intro t ht
  obtain ⟨j, hj⟩ := List.mem_iff_getElem?.1 ht
  exact getElem?_init hj

/-! ### The modelled `pop` -/

theorem pop_of_head_none (fuel : Nat) (m : Mem) (h : m.head = none) :
    pop (fuel + 1) m = some (none, m) := by
  unfold pop
  simp only [h]

/-- Pushing `1, 2, 3` and then popping five times, single-threaded: the values
come back most recent first, then the stack answers "empty". -/
theorem push_then_pops_example :
    (push_all 1 Mem.empty [1, 2, 3]).bind (fun m => (pops 1 5 m).map Prod.fst) =
      some [some 3, some 2, some 1, none, none] := by
  decide

/-- C3: on a stack whose `head` is the empty marker, `pop` (as modelled from
the spec) returns "empty" and leaves the memory as it was, so `head` is still
the empty marker; `n` pops in a row all return "empty" and leave the memory as
it was. -/
theorem pop_empty (fuel : Nat) (m : Mem) (n : Nat) (h : m.head = none) :
    pop (fuel + 1) m = some (none, m) ∧
    (∀ r m', pop (fuel + 1) m = some (r, m') → r = none ∧ m'.head = none) ∧
    pops (fuel + 1) n m = some (List.replicate n none, m) := by
  refine ⟨pop_of_head_none fuel m h, ?_, ?_⟩
  · intro r m' hp
    rw [pop_of_head_none fuel m h] at hp
    cases hp
    exact ⟨rfl, h⟩
  · induction n with
    | zero => rfl
    | succ n ih =>
      unfold pops
      rw [pop_of_head_none fuel m h]
      simp only [ih, Option.map_some', List.replicate_succ]

/-- Witness for C3: the memory left by pushing `1, 2, 3` and popping three
times; its `head` is the empty marker. -/
theorem pop_empty_witness :
    (push_all 1 Mem.empty [1, 2, 3]).bind (fun m => (pops 1 3 m).map Prod.snd) =
      some { heap := [{ value := some 1, next := some none },
                      { value := some 2, next := some (some 0) },
                      { value := some 3, next := some (some 1) }],
             head := none } ∧
    pops 1 2 { heap := [{ value := some 1, next := some none },
                        { value := some 2, next := some (some 0) },
                        { value := some 3, next := some (some 1) }],
               head := none } =
      some ([none, none],
        { heap := [{ value := some 1, next := some none },
                   { value := some 2, next := some (some 0) },
                   { value := some 3, next := some (some 1) }],
          head := none }) :=
  ⟨by decide, (pop_empty 0 _ 2 rfl).2.2⟩

end atomic_list

/-! ### `LockFree::runner` -/

theorem LockFree.step_runner_eq {s : LockFree} {i : Nat} {t : RunnerThread}
    (hi : s.threads[i]? = some t) :
    s.step i =
      { m_x := (LockFree.runner_step s.m_x t).1,
        threads := s.threads.set i (LockFree.runner_step s.m_x t).2 } := by
  simp [LockFree.step, hi]

theorem LockFree.DoneInv.at_init (n : Nat) : (LockFree.init n).DoneInv := by
  have h : ∀ (i : Nat) (t : RunnerThread), (LockFree.init n).threads[i]? = some t →
      t.pc = RunnerPC.load := by
    intro i t hi
    have := List.eq_of_mem_replicate (List.getElem?_mem hi)
    rw [this]
  constructor
  · intro i t hi hpc
    rw [h i t hi] at hpc
    cases hpc
  · intro i j ti tj hi _ _ hpc
    rw [h i ti hi] at hpc
    cases hpc

theorem LockFree.DoneInv.after_step {s : LockFree} (hinv : s.DoneInv) (i : Nat) :
    (s.step i).DoneInv := by
  cases hi : s.threads[i]? with
  | none =>
    have : s.step i = s := by simp [LockFree.step, hi]
    rw [this]
    exact hinv
  | some t =>
    rw [LockFree.step_runner_eq hi]
    -- what the step does: `m_x` does not decrease, and the thread is done afterwards only
    -- if it was done and unchanged, or it has just swapped `m_x` from its `x0` to `x0 + 1`
    have key : s.m_x ≤ (LockFree.runner_step s.m_x t).1 ∧
        ((LockFree.runner_step s.m_x t).2.pc = RunnerPC.done →
          (t.pc = RunnerPC.done ∧ (LockFree.runner_step s.m_x t).2 = t ∧
            (LockFree.runner_step s.m_x t).1 = s.m_x) ∨
          ((LockFree.runner_step s.m_x t).2.x0 = some s.m_x ∧
            (LockFree.runner_step s.m_x t).1 = s.m_x + 1)) := by
      unfold LockFree.runner_step
      cases hpc : t.pc with
      | load => simp
      | block => simp
      | done => simp [hpc]
      | cas =>
        cases hx : t.x0 with
        | none => simp [hpc]
        | some v =>
          by_cases hv : s.m_x = v
          · simp [operation_compare_exchange_strong, hv]
          · simp [operation_compare_exchange_strong, hv]
    obtain ⟨hle, hdone⟩ := key
    generalize (LockFree.runner_step s.m_x t).1 = m' at hle hdone
    generalize (LockFree.runner_step s.m_x t).2 = t' at hdone
    have hbelow : t'.pc = RunnerPC.done → ∃ v, t'.x0 = some v ∧ v < m' := by
      intro hpc
      rcases hdone hpc with ⟨htpc, rfl, rfl⟩ | ⟨hx, rfl⟩
      · exact hinv.below i t' hi htpc
      · exact ⟨s.m_x, hx, by omega⟩
    have hother : ∀ (j : Nat) (u : RunnerThread), j ≠ i → s.threads[j]? = some u →
        u.pc = RunnerPC.done → t'.pc = RunnerPC.done → u.x0 ≠ t'.x0 := by
      intro j u hji hj hupc hpc
      rcases hdone hpc with ⟨htpc, rfl, rfl⟩ | ⟨hx, rfl⟩
      · exact hinv.unique j i u t' hj hi hji hupc htpc
      · obtain ⟨v, hv, hlt⟩ := hinv.below j u hj hupc
        rw [hv, hx]
        intro e
        cases e
        exact absurd hlt (Int.lt_irrefl _)
    constructor
    · intro j u hj hpc
      rcases atomic_list.getElem?_set_cases hj with ⟨_, rfl⟩ | ⟨hji, hj'⟩
      · exact hbelow hpc
      · obtain ⟨v, hv, hlt⟩ := hinv.below j u hj' hpc
        exact ⟨v, hv, Int.lt_of_lt_of_le hlt hle⟩
    · intro j k tj tk hj hk hjk hpcj hpck
      rcases atomic_list.getElem?_set_cases hj with ⟨hji, hj'⟩ | ⟨hji, hj'⟩
      · subst hj'
        rcases atomic_list.getElem?_set_cases hk with ⟨hki, hk'⟩ | ⟨hki, hk'⟩
        · exact absurd (hji.trans hki.symm) hjk
        · exact fun e => hother k tk hki hk' hpck hpcj e.symm
      · rcases atomic_list.getElem?_set_cases hk with ⟨hki, hk'⟩ | ⟨hki, hk'⟩
        · subst hk'
          exact hother j tj hji hj' hpcj hpck
        · exact hinv.unique j k tj tk hj' hk' hjk hpcj hpck

/-- After the loop of `runner`, not inside its block, the values of `x0` are
unique: in every state reached from `n` threads calling `runner` on a fresh
object, two different threads that have returned hold different `x0`. -/
theorem runner_done_unique (n : Nat) (sched : List Nat) :
    ((LockFree.init n).run sched).DoneInv := by
  have h : ∀ (sched : List Nat) (s : LockFree), s.DoneInv → (s.run sched).DoneInv := by
    intro sched
    induction sched with
    | nil => exact fun s hs => hs
    | cons i sched ih => exact fun s hs => ih (s.step i) (hs.after_step i)
  exact h sched _ (LockFree.DoneInv.at_init n)

/-- C8: the block of the `while` loop in `runner` is entered exactly when the
compare-and-swap fails, and then `m_x` is unchanged and `x0` is reloaded with
it, so inside the block `m_x` equals `x0`, not `x0 + 1`; with three threads and
the interleaving load, load, load, cas, cas, cas, threads 1 and 2 are both in
the block holding the same `x0 = 1` while `m_x = 1`: what the comment in the
block states does not hold there. -/
theorem runner_block_comment_fails :
    (∀ (s : LockFree) (i : Nat) (t : RunnerThread) (v : Int), s.threads[i]? = some t →
      t.pc = RunnerPC.cas → t.x0 = some v →
      (((s.step i).threads[i]?.map RunnerThread.pc = some RunnerPC.block) ↔ s.m_x ≠ v) ∧
      (s.m_x ≠ v → (s.step i).m_x = s.m_x ∧
        (s.step i).threads[i]? = some { pc := RunnerPC.block, x0 := some s.m_x })) ∧
    ((LockFree.init 3).run [0, 1, 2, 0, 1, 2]) =
      { m_x := 1,
        threads := [{ pc := RunnerPC.done, x0 := some 0 },
                    { pc := RunnerPC.block, x0 := some 1 },
                    { pc := RunnerPC.block, x0 := some 1 }] } ∧
    ¬ ((LockFree.init 3).run [0, 1, 2, 0, 1, 2]).block_comment := by
  refine ⟨?_, by decide, ?_⟩
  · intro s i t v hi hpc hx0
    have hlt : i < s.threads.length := (List.getElem?_eq_some.1 hi).1
    rw [LockFree.step_runner_eq hi]
    by_cases h : s.m_x = v
    · simp [LockFree.runner_step, hpc, hx0, operation_compare_exchange_strong, h,
        List.getElem?_set, hlt]
    · simp [LockFree.runner_step, hpc, hx0, operation_compare_exchange_strong, h,
        List.getElem?_set, hlt]
  · intro hc
    have h := (hc 1 { pc := RunnerPC.block, x0 := some 1 } (by decide) rfl).1
    obtain ⟨x0, hx0, hm⟩ := h
    cases hx0
    revert hm
    decide

end case_atomic

namespace case_nvirtual

/-- C10: `Baz::store` appends the value to the vector of its own type and
leaves the other vector as it was; a store of a `T1` and a store of a `T2`
commute, so the order between the two types is lost; two stores of one type
land in the order of the calls; `caseStudy3`, which stores a `Foo1` and then a
`Foo2`, ends in the state that storing the `Foo2` first gives. -/
theorem baz_store_order {T1 T2 : Type} (b : Baz T1 T2) (x x' : T1) (y y' : T2) :
    (b.store (Sum.inl x)).m_data = (b.m_data.1 ++ [x], b.m_data.2) ∧
    (b.store (Sum.inr y)).m_data = (b.m_data.1, b.m_data.2 ++ [y]) ∧
    (b.store (Sum.inl x)).store (Sum.inr y) = (b.store (Sum.inr y)).store (Sum.inl x) ∧
    ((b.store (Sum.inl x)).store (Sum.inl x')).m_data = (b.m_data.1 ++ [x, x'], b.m_data.2) ∧
    ((b.store (Sum.inr y)).store (Sum.inr y')).m_data = (b.m_data.1, b.m_data.2 ++ [y, y']) ∧
    caseStudy3 =
      (({ m_data := ([], []) } : foo_storage_t).store (Sum.inr {})).store (Sum.inl {}) := by
  simp [Baz.store, caseStudy3]

end case_nvirtual

